import Mathlib

/-!
# Verification of `lines` (mnys176/lines, `main.go`)

The tool wraps text to a configured width.  The three wrapping functions
`chopLine`, `chopParagraph` and `chopEssay` of `main.go` are embedded below as
Lean functions, together with the two library operations they rely on
(`strings.TrimSpace` and `regexp.Split` for the three patterns used), and
`readArgs` and `main` as functions of the positional arguments and of what
the program observes of standard input.

Modelling conventions.

* A Go `string` is modelled by the list of its code points (`List Char`), i.e.
  the development covers valid UTF-8 text.  Go's `len(s)` is the number of
  bytes of the UTF-8 encoding, which is `len` below.  (Bytes that are not
  valid UTF-8 are read by both library operations as the non-space character
  U+FFFD of width one; they are not modelled.)
* Go's `int` has 64 bits.  The subtraction `l-len(p)-len(s)` of `main`, whose
  operand `l` is any value of the flag `--length`, is modelled with its
  wrap-around (`goWidth`).  The sum `b.Len()+len(w)` of `chopLine` adds two
  lengths of strings held in memory and is taken in `Int`.
* `unicode.IsSpace` (used by `strings.TrimSpace`) and the class `\s` of Go's
  `regexp` package are different sets: `\s` is `[\t\n\f\r ]` only, whereas
  `unicode.IsSpace` also holds for `\v`, U+0085, U+00A0 and the other Unicode
  space characters.
-/

namespace Lines

/-! ## Strings -/

/-- Go's builtin `len` on a string: the number of bytes of its UTF-8 encoding. -/
def len : List Char → Nat
  | [] => 0
  | c :: cs => c.utf8Size + len cs

/-- Go's `unicode.IsSpace`: `'\t'`, `'\n'`, `'\v'`, `'\f'`, `'\r'`, `' '`, U+0085 (NEL),
U+00A0 (NBSP) and the characters with the Unicode property White_Space. -/
def isSpace (c : Char) : Bool :=
  let n := c.toNat
  (0x09 ≤ n && n ≤ 0x0D) || n == 0x20 || n == 0x85 || n == 0xA0 || n == 0x1680 ||
    (0x2000 ≤ n && n ≤ 0x200A) || n == 0x2028 || n == 0x2029 || n == 0x202F ||
    n == 0x205F || n == 0x3000

/-- The character class `\s` of Go's `regexp` (RE2 syntax): exactly `[\t\n\f\r ]`. -/
def isReSpace (c : Char) : Bool :=
  let n := c.toNat
  n == 0x09 || n == 0x0A || n == 0x0C || n == 0x0D || n == 0x20

/-- The newline character matched by the patterns `\n` and `\n{2,}`. -/
def isNewline (c : Char) : Bool := c.toNat == 0x0A

/-- Go's `strings.TrimSpace`: the string without its leading and trailing
`unicode.IsSpace` characters. -/
def TrimSpace (s : List Char) : List Char :=
  (s.dropWhile isSpace).rdropWhile isSpace

/-! ## `regexp.Split(s, -1)` for the three patterns of `main.go`

`Split` returns the substrings between the successive leftmost matches of the
pattern, including an empty leading (trailing) substring when the text starts
(ends) with a match; on the empty text it returns one empty string. -/

/-- The call `regexp.MustCompile("\\s+").Split(s, -1)`, generalised to a class `p`:
every maximal run of characters of `p` is one separator.  The flag tells
whether the previous character belonged to a separator. -/
def splitRuns (p : Char → Bool) : Bool → List Char → List (List Char)
  | _, [] => [[]]
  | inRun, c :: rest =>
    if p c then
      if inRun then splitRuns p true rest else [] :: splitRuns p true rest
    else (splitRuns p false rest).modifyHead (List.cons c)

/-- The call `regexp.MustCompile("\\n").Split(s, -1)`: every newline is one separator. -/
def splitNewline (s : List Char) : List (List Char) :=
  s.splitOnP isNewline

/-- Whether the text starts with a newline. -/
def startsNewline : List Char → Bool
  | [] => false
  | c :: _ => isNewline c

/-- The call `regexp.MustCompile("\n{2,}").Split(s, -1)`: every maximal run of two or
more newlines is one separator, a newline standing alone is ordinary text.
The flag tells whether the previous character belonged to a separator. -/
def splitBlank : Bool → List Char → List (List Char)
  | _, [] => [[]]
  | inRun, c :: rest =>
    if isNewline c then
      if inRun then splitBlank true rest
      else if startsNewline rest then [] :: splitBlank true rest
      else (splitBlank false rest).modifyHead (List.cons c)
    else (splitBlank false rest).modifyHead (List.cons c)

/-! ## The wrapping functions of `main.go` -/

/-- The `for _, w := range words` loop of `chopLine`, as a function of the
remaining words and the state `(lines, b)`; `b` is the content of the
`strings.Builder`. -/
def chopLoop (length : Int) :
    List (List Char) → List (List Char) → List Char → List (List Char) × List Char
  | [], lines, b => (lines, b)
  | w :: ws, lines, b =>
    if (len w : Int) > length then
      chopLoop length ws lines b
    else if (len b : Int) + (len w : Int) > length then
      chopLoop length ws (lines ++ [TrimSpace b]) (w ++ [' '])
    else
      chopLoop length ws lines (b ++ (w ++ [' ']))

/-- The `words` of `chopLine`: the trimmed line split at `\s+`. -/
def words (line : List Char) : List (List Char) :=
  splitRuns isReSpace false (TrimSpace line)

/-- The part of `chopLine` after the loop. -/
def chopFinish (st : List (List Char) × List Char) : List (List Char) :=
  if len st.2 = 0 then st.1 else st.1 ++ [TrimSpace st.2]

/-- Go's `chopLine(line string, length int) []string`. -/
def chopLine (line : List Char) (length : Int) : List (List Char) :=
  chopFinish (chopLoop length (words line) [] [])

/-- The loop of `chopParagraph` over the lines of the paragraph. -/
def paragraphLoop (length : Int) : List (List Char) → List (List Char) → List (List Char)
  | [], lines => lines
  | l :: ls, lines =>
    if len l > 0 then paragraphLoop length ls (lines ++ chopLine l length)
    else paragraphLoop length ls lines

/-- Go's `chopParagraph(paragraph string, length int) []string`. -/
def chopParagraph (paragraph : List Char) (length : Int) : List (List Char) :=
  paragraphLoop length (splitNewline (TrimSpace paragraph)) []

/-- The loop of `chopEssay` over the paragraphs of the essay. -/
def essayLoop (length : Int) : List (List Char) → List (List Char) → List (List Char)
  | [], lines => lines
  | p :: ps, lines =>
    if len p > 0 then
      let pLines := chopParagraph p length
      if pLines.length > 0 then essayLoop length ps (lines ++ (pLines ++ [[]]))
      else essayLoop length ps lines
    else essayLoop length ps lines

/-- Go's `chopEssay(essay string, length int) []string`. -/
def chopEssay (essay : List Char) (length : Int) : List (List Char) :=
  let lines := essayLoop length (splitBlank false (TrimSpace essay)) []
  if lines.length = 0 then lines else lines.take (lines.length - 1)

/-- The value of an integer result in Go's 64-bit `int`: the representative of
`x` modulo `2^64` in the range from `-2^63` to `2^63 - 1`. -/
def wrap64 (x : Int) : Int :=
  (x + 9223372036854775808) % 18446744073709551616 - 9223372036854775808

/-- The expression `l-len(p)-len(s)` of `main`, evaluated from left to right in
Go's 64-bit `int`. -/
def goWidth (l : Int) (p s : List Char) : Int :=
  wrap64 (wrap64 (l - (len p : Int)) - (len s : Int))

/-- The lines written by `main` for the input `str` under the flags `l`, `p`, `s`:
`p+line+s` for every `line` of `chopEssay(str, l-len(p)-len(s))`. -/
def mainOutput (l : Int) (p s str : List Char) : List (List Char) :=
  (chopEssay str (goWidth l p s)).map (fun line => p ++ line ++ s)


/-! ## The command line of `main.go` -/

/-- What `readArgs` observes of standard input: the size reported by
`os.Stdin.Stat()` and the text returned by `io.ReadAll(os.Stdin)`; `none`
stands for the error of the call. -/
structure Stdin where
  size : Option Int
  content : Option (List Char)

/-- Go's `readArgs()`, as a function of the positional arguments (`flag.Args()`)
and of standard input; `none` is the returned error. -/
def readArgs (flagArgs : List (List Char)) (stdin : Stdin) : Option (List (List Char)) :=
  match stdin.size with
  | none => none
  | some size =>
    if size > 0 then
      match stdin.content with
      | none => none
      | some bytes => some (flagArgs ++ [bytes])
    else some flagArgs

/-- What a run of `main` does: it panics on the error of `readArgs`, reports
`no string provided` or `too many arguments` on standard error, or prints
lines on standard output. -/
inductive Outcome where
  | panicked : Outcome
  | noString : Outcome
  | tooMany : Outcome
  | printed : List (List Char) → Outcome

/-- Go's `main` after `flag.Parse()`, for the flag values `l`, `p`, `s`, the
positional arguments and standard input. -/
def mainRun (l : Int) (p s : List Char) (flagArgs : List (List Char)) (stdin : Stdin) :
    Outcome :=
  match readArgs flagArgs stdin with
  | none => Outcome.panicked
  | some args =>
    if args.length = 0 then Outcome.noString
    else if args.length > 1 then Outcome.tooMany
    else Outcome.printed (mainOutput l p s (args.headD []))

/-! ## Auxiliary notions used in the statements -/

/-- A non-empty text that neither starts nor ends with a space character. -/
def Tight (x : List Char) : Prop :=
  x ≠ [] ∧ (∀ c, x.head? = some c → isSpace c = false) ∧
    ∀ c, x.getLast? = some c → isSpace c = false

/-- Go's `strings.Fields`: the maximal substrings of a text that contain no
`unicode.IsSpace` character, i.e. its whitespace-separated words. -/
def Fields (s : List Char) : List (List Char) :=
  (s.splitOnP isSpace).filter (fun w => !w.isEmpty)

/-- The words of the output lines of a wrapping, read back by splitting every
line at single spaces, in output order. -/
def outputWords (lines : List (List Char)) : List (List Char) :=
  (lines.map (fun L => L.splitOn ' ')).flatten

/-- The test of `chopLine` that keeps a word: not `len(w) > length`. -/
def fits (length : Int) (w : List Char) : Bool :=
  decide ((len w : Int) ≤ length)

/-- Whether the text contains two consecutive newlines. -/
def hasBlankLine : List Char → Bool
  | [] => false
  | a :: rest => (isNewline a && startsNewline rest) || hasBlankLine rest

/-- A text without two consecutive newlines, i.e. without a paragraph break. -/
def NoBlankLine (s : List Char) : Prop := hasBlankLine s = false

instance : DecidablePred NoBlankLine := fun s =>
  inferInstanceAs (Decidable (hasBlankLine s = false))

/-- The first word of an output line: its characters before the first space. -/
def firstWord (L : List Char) : List Char :=
  L.takeWhile (fun c => c != ' ')

/-- Whether the text starts with a space. -/
def startsSpace : List Char → Bool
  | [] => false
  | c :: _ => c == ' '

/-- Whether the text contains two adjacent spaces. -/
def hasDoubleSpace : List Char → Bool
  | [] => false
  | c :: rest => (c == ' ' && startsSpace rest) || hasDoubleSpace rest

/-- The word that starts line `B` would not have fitted at the end of line
`A`: `len(A) + 1 + len(first word of B) > width`. -/
def NoFit (width : Int) (A B : List Char) : Prop :=
  (len A : Int) + 1 + (len (firstWord B) : Int) > width

/-- The wrapped paragraphs that are not empty, in order. -/
def wrappedParagraphs (width : Int) (ps : List (List Char)) : List (List (List Char)) :=
  (ps.map (fun p => chopParagraph p width)).filter (fun r => !r.isEmpty)

/-- The trimmed paragraphs that are not empty, in order: what the wrapping of
a list of paragraphs depends on. -/
def trimmedParagraphs (ps : List (List Char)) : List (List Char) :=
  (ps.map TrimSpace).filter (fun p => !p.isEmpty)

/-! ## Basic facts about `len` and `TrimSpace` -/

theorem len_append (s t : List Char) : len (s ++ t) = len s + len t := by
  induction s with
  | nil => simp [len]
  | cons c cs ih => simp [len, ih, Nat.add_assoc]

theorem len_eq_zero_iff (s : List Char) : len s = 0 ↔ s = [] := by
  cases s with
  | nil => simp [len]
  | cons c cs =>
    have := Char.utf8Size_pos c
    simp [len]; omega

theorem len_singleton_space : len [' '] = 1 := by decide

theorem len_le_of_sublist {s t : List Char} (h : s.Sublist t) : len s ≤ len t := by
  induction h with
  | slnil => exact Nat.le_refl _
  | cons c _ ih => simp only [len]; omega
  | cons₂ c _ ih => simp only [len]; omega

theorem TrimSpace_sublist (s : List Char) : (TrimSpace s).Sublist s :=
  (List.rdropWhile_prefix isSpace _).sublist.trans (List.dropWhile_suffix isSpace).sublist

theorem len_TrimSpace_le (s : List Char) : len (TrimSpace s) ≤ len s :=
  len_le_of_sublist (TrimSpace_sublist s)

theorem TrimSpace_nil : TrimSpace [] = [] := by simp [TrimSpace]

theorem TrimSpace_append_space (x : List Char) (c : Char) (hc : isSpace c = true) :
    TrimSpace (x ++ [c]) = TrimSpace x := by
  unfold TrimSpace
  rw [List.dropWhile_append]
  split
  · rename_i h
    simp only [List.isEmpty_eq_true] at h
    simp [h, List.dropWhile, hc]
  · exact List.rdropWhile_concat_pos _ _ _ hc

theorem isSpace_space : isSpace ' ' = true := by decide

/-! ## The width bound -/

theorem len_TrimSpace_builder (x : List Char) : len (TrimSpace (x ++ [' '])) ≤ len x := by
  rw [TrimSpace_append_space x ' ' isSpace_space]
  exact len_TrimSpace_le x

/-- The loop of `chopLine` keeps every flushed line within `length`, and the
builder is either empty or a text within `length` followed by one space. -/
theorem chopLoop_bound (length : Int) (ws : List (List Char)) :
    ∀ (lines : List (List Char)) (b : List Char),
      (∀ L ∈ lines, (len L : Int) ≤ length) →
      (b = [] ∨ ∃ x, b = x ++ [' '] ∧ (len x : Int) ≤ length) →
      (∀ L ∈ (chopLoop length ws lines b).1, (len L : Int) ≤ length) ∧
      ((chopLoop length ws lines b).2 = [] ∨
        ∃ x, (chopLoop length ws lines b).2 = x ++ [' '] ∧ (len x : Int) ≤ length) := by
  induction ws with
  | nil => intro lines b hl hb; exact ⟨hl, hb⟩
  | cons w ws ih =>
    intro lines b hl hb
    simp only [chopLoop]
    split
    · exact ih lines b hl hb
    · rename_i hw
      split
      · rename_i hfl
        apply ih
        · intro L hL
          rcases List.mem_append.1 hL with h | h
          · exact hl L h
          · simp only [List.mem_singleton] at h
            subst h
            rcases hb with hb | ⟨x, hx, hxl⟩
            · subst hb
              simp only [len] at hfl
              omega
            · subst hx
              have := len_TrimSpace_builder x
              omega
        · exact Or.inr ⟨w, rfl, by omega⟩
      · rename_i hfl
        apply ih _ _ hl
        refine Or.inr ⟨b ++ w, by simp, ?_⟩
        rw [len_append]
        push_cast
        omega

theorem chopLine_bound (line : List Char) (length : Int) :
    ∀ L ∈ chopLine line length, (len L : Int) ≤ length := by
  intro L hL
  obtain ⟨h1, h2⟩ := chopLoop_bound length (words line) [] [] (by simp) (Or.inl rfl)
  unfold chopLine chopFinish at hL
  split at hL
  · exact h1 L hL
  · rename_i hne
    rcases List.mem_append.1 hL with h | h
    · exact h1 L h
    · simp only [List.mem_singleton] at h
      rcases h2 with h2 | ⟨x, hx, hxl⟩
      · rw [h2] at hne; simp [len] at hne
      · rw [hx] at h
        subst h
        have := len_TrimSpace_builder x
        omega

theorem paragraphLoop_bound (length : Int) (ls : List (List Char)) :
    ∀ lines : List (List Char), (∀ L ∈ lines, (len L : Int) ≤ length) →
      ∀ L ∈ paragraphLoop length ls lines, (len L : Int) ≤ length := by
  induction ls with
  | nil => intro lines hl; exact hl
  | cons l ls ih =>
    intro lines hl
    simp only [paragraphLoop]
    split
    · apply ih
      intro L hL
      rcases List.mem_append.1 hL with h | h
      · exact hl L h
      · exact chopLine_bound l length L h
    · exact ih lines hl

theorem chopParagraph_bound (paragraph : List Char) (length : Int) :
    ∀ L ∈ chopParagraph paragraph length, (len L : Int) ≤ length :=
  paragraphLoop_bound length _ [] (by simp)

theorem essayLoop_bound (length : Int) (ps : List (List Char)) :
    ∀ lines : List (List Char), (∀ L ∈ lines, (len L : Int) ≤ length) →
      ∀ L ∈ essayLoop length ps lines, (len L : Int) ≤ length := by
  induction ps with
  | nil => intro lines hl; exact hl
  | cons p ps ih =>
    intro lines hl
    simp only [essayLoop]
    split
    · split
      · rename_i hpos
        apply ih
        intro L hL
        rcases List.mem_append.1 hL with h | h
        · exact hl L h
        · rcases List.mem_append.1 h with h | h
          · exact chopParagraph_bound p length L h
          · simp only [List.mem_singleton] at h
            subst h
            obtain ⟨M, hM⟩ := List.exists_mem_of_length_pos hpos
            have := chopParagraph_bound p length M hM
            simp only [len]
            omega
      · exact ih lines hl
    · exact ih lines hl

/-- Every line returned by `chopEssay` has at most `length` bytes, for every
`length`, the empty separator lines included. -/
theorem chopEssay_bound (essay : List Char) (length : Int) :
    ∀ L ∈ chopEssay essay length, (len L : Int) ≤ length := by
  intro L hL
  have key := essayLoop_bound length (splitBlank false (TrimSpace essay)) [] (by simp)
  unfold chopEssay at hL
  simp only at hL
  split at hL
  · exact key L hL
  · exact key L (List.mem_of_mem_take hL)

/-! ## Dropped words and blank input -/

theorem chopLoop_all_dropped (length : Int) (ws : List (List Char)) :
    ∀ (lines : List (List Char)) (b : List Char),
      (∀ w ∈ ws, length < (len w : Int)) → chopLoop length ws lines b = (lines, b) := by
  induction ws with
  | nil => intro lines b _; rfl
  | cons w ws ih =>
    intro lines b h
    have hw : (len w : Int) > length := h w (List.mem_cons_self _ _)
    simp only [chopLoop, hw, if_true]
    exact ih lines b (fun v hv => h v (List.mem_cons_of_mem _ hv))

theorem TrimSpace_eq_nil_of_blank (s : List Char) (h : ∀ c ∈ s, isSpace c = true) :
    TrimSpace s = [] := by
  have : s.dropWhile isSpace = [] := by
    rw [List.dropWhile_eq_nil_iff]; exact h
  simp [TrimSpace, this]

/-! ## The split at `\s+` -/

theorem isSpace_of_isReSpace (c : Char) (h : isReSpace c = true) : isSpace c = true := by
  simp only [isReSpace, isSpace, Bool.or_eq_true, beq_iff_eq, Bool.and_eq_true,
    decide_eq_true_eq] at h ⊢
  omega

theorem mem_modifyHead_cons {c : Char} {xs : List (List Char)} {w : List Char}
    (h : w ∈ xs.modifyHead (List.cons c)) : (∃ v, v ∈ xs ∧ w = c :: v) ∨ w ∈ xs := by
  cases xs with
  | nil => simp at h
  | cons x xs =>
    simp only [List.modifyHead_cons, List.mem_cons] at h
    rcases h with h | h
    · exact Or.inl ⟨x, List.mem_cons_self _ _, h⟩
    · exact Or.inr (List.mem_cons_of_mem _ h)

/-- No piece of a split contains a separator character. -/
theorem splitRuns_no_sep (p : Char → Bool) (s : List Char) :
    ∀ (flag : Bool), ∀ w ∈ splitRuns p flag s, ∀ c ∈ w, p c = false := by
  induction s with
  | nil =>
    intro flag w hw c hc
    simp only [splitRuns, List.mem_singleton] at hw
    subst hw
    simp at hc
  | cons a rest ih =>
    intro flag w hw c hc
    simp only [splitRuns] at hw
    split at hw
    · split at hw
      · exact ih true w hw c hc
      · rcases List.mem_cons.1 hw with h | h
        · subst h; simp at hc
        · exact ih true w h c hc
    · rename_i ha
      rcases mem_modifyHead_cons hw with ⟨v, hv, rfl⟩ | h
      · rcases List.mem_cons.1 hc with h | h
        · subst h; simpa using ha
        · exact ih false v hv c h
      · exact ih false w h c hc

/-- Every character of a piece is a character of the text. -/
theorem splitRuns_subset (p : Char → Bool) (s : List Char) :
    ∀ (flag : Bool), ∀ w ∈ splitRuns p flag s, ∀ c ∈ w, c ∈ s := by
  induction s with
  | nil =>
    intro flag w hw c hc
    simp only [splitRuns, List.mem_singleton] at hw
    subst hw
    simp at hc
  | cons a rest ih =>
    intro flag w hw c hc
    simp only [splitRuns] at hw
    split at hw
    · split at hw
      · exact List.mem_cons_of_mem _ (ih true w hw c hc)
      · rcases List.mem_cons.1 hw with h | h
        · subst h; simp at hc
        · exact List.mem_cons_of_mem _ (ih true w h c hc)
    · rcases mem_modifyHead_cons hw with ⟨v, hv, rfl⟩ | h
      · rcases List.mem_cons.1 hc with h | h
        · subst h; exact List.mem_cons_self _ _
        · exact List.mem_cons_of_mem _ (ih false v hv c h)
      · exact List.mem_cons_of_mem _ (ih false w h c hc)

theorem splitRuns_ne_nil_aux (p : Char → Bool) (s : List Char) :
    (∀ c, s.getLast? = some c → p c = false) →
      (s ≠ [] → ∀ w ∈ splitRuns p true s, w ≠ []) ∧
        (∀ w ∈ (splitRuns p false s).tail, w ≠ []) := by
  induction s with
  | nil => intro _; simp [splitRuns]
  | cons a rest ih =>
    intro hlast
    have hrest : ∀ c, rest.getLast? = some c → p c = false := by
      cases rest with
      | nil => simp
      | cons b r => simpa [List.getLast?_cons_cons] using hlast
    have hne : p a = true → rest ≠ [] := by
      intro ha hr
      subst hr
      have := hlast a (by simp)
      simp [ha] at this
    obtain ⟨ih1, ih2⟩ := ih hrest
    constructor
    · intro _ w hw
      simp only [splitRuns] at hw
      split at hw
      · rename_i ha
        exact ih1 (hne ha) w hw
      · cases hsp : splitRuns p false rest with
        | nil => rw [hsp] at hw; simp at hw
        | cons x xs =>
          rw [hsp] at hw ih2
          simp only [List.modifyHead_cons, List.mem_cons] at hw
          rcases hw with h | h
          · subst h; simp
          · exact ih2 w (by simpa using h)
    · intro w hw
      simp only [splitRuns] at hw
      split at hw
      · rename_i ha
        simp only [Bool.false_eq_true, if_false, List.tail_cons] at hw
        exact ih1 (hne ha) w hw
      · rw [List.tail_modifyHead] at hw
        exact ih2 w hw

/-- A text that neither starts nor ends with a separator is split into
non-empty pieces. -/
theorem splitRuns_ne_nil (p : Char → Bool) (a : Char) (rest : List Char) (ha : p a = false)
    (hlast : ∀ c, (a :: rest).getLast? = some c → p c = false) :
    ∀ w ∈ splitRuns p false (a :: rest), w ≠ [] := by
  intro w hw
  have hrest : ∀ c, rest.getLast? = some c → p c = false := by
    cases rest with
    | nil => simp
    | cons b r => simpa [List.getLast?_cons_cons] using hlast
  simp only [splitRuns, ha, Bool.false_eq_true, if_false] at hw
  cases hsp : splitRuns p false rest with
  | nil => rw [hsp] at hw; simp at hw
  | cons x xs =>
    have h2 := (splitRuns_ne_nil_aux p rest hrest).2
    rw [hsp] at hw h2
    simp only [List.modifyHead_cons, List.mem_cons] at hw
    rcases hw with h | h
    · subst h; simp
    · exact h2 w (by simpa using h)

theorem TrimSpace_head (s : List Char) (a : Char) (rest : List Char)
    (h : TrimSpace s = a :: rest) : isSpace a = false := by
  obtain ⟨r, hr⟩ := List.rdropWhile_prefix isSpace (s.dropWhile isSpace)
  have hd := List.head?_dropWhile_not isSpace s
  unfold TrimSpace at h
  rw [h] at hr
  rw [← hr] at hd
  simpa using hd

theorem TrimSpace_last (s : List Char) :
    ∀ c, (TrimSpace s).getLast? = some c → isSpace c = false := by
  intro c hc
  have hne : TrimSpace s ≠ [] := by
    intro h; rw [h] at hc; simp at hc
  have := List.rdropWhile_last_not isSpace (s.dropWhile isSpace) hne
  rw [List.getLast?_eq_getLast _ hne] at hc
  simp only [Option.some.injEq] at hc
  rw [← hc]
  simpa [TrimSpace] using this

/-- The words of a line with a non-space character are non-empty and free of
the characters of `\s`. -/
theorem words_nice (line : List Char) (hne : TrimSpace line ≠ []) :
    ∀ w ∈ words line, w ≠ [] ∧ (∀ c ∈ w, isReSpace c = false) ∧ ∀ c ∈ w, c ∈ line := by
  intro w hw
  unfold words at hw
  refine ⟨?_, splitRuns_no_sep _ _ _ w hw, ?_⟩
  · cases ht : TrimSpace line with
    | nil => exact absurd ht hne
    | cons a rest =>
      have ha : isReSpace a = false := by
        have := TrimSpace_head line a rest ht
        cases h : isReSpace a with
        | false => rfl
        | true => rw [isSpace_of_isReSpace a h] at this; exact absurd this (by simp)
      have hl : ∀ c, (a :: rest).getLast? = some c → isReSpace c = false := by
        intro c hc
        rw [← ht] at hc
        have := TrimSpace_last line c hc
        cases h : isReSpace c with
        | false => rfl
        | true => rw [isSpace_of_isReSpace c h] at this; exact absurd this (by simp)
      rw [ht] at hw
      exact splitRuns_ne_nil isReSpace a rest ha hl w hw
  · intro c hc
    exact (TrimSpace_sublist line).subset (splitRuns_subset _ _ _ w hw c hc)

theorem words_blank (line : List Char) (h : TrimSpace line = []) : words line = [[]] := by
  simp [words, h, splitRuns]

/-! ## Reading the words back from the output -/

theorem Tight_TrimSpace (x : List Char) (h : Tight x) : TrimSpace (x ++ [' ']) = x := by
  obtain ⟨hne, hhead, hlast⟩ := h
  rw [TrimSpace_append_space x ' ' isSpace_space]
  unfold TrimSpace
  have h1 : x.dropWhile isSpace = x := by
    cases x with
    | nil => rfl
    | cons a r =>
      have := hhead a (by simp)
      simp [List.dropWhile, this]
  rw [h1, List.rdropWhile_eq_self_iff]
  intro hl
  have := hlast _ (List.getLast?_eq_getLast x hl)
  simp [this]

theorem Tight_of_word (w : List Char) (hne : w ≠ []) (hw : ∀ c ∈ w, isSpace c = false) :
    Tight w := by
  refine ⟨hne, ?_, ?_⟩
  · intro c hc
    exact hw c (List.mem_of_mem_head? hc)
  · intro c hc
    exact hw c (List.mem_of_getLast?_eq_some hc)

theorem Tight_append_word (x w : List Char) (hx : Tight x) (hne : w ≠ [])
    (hw : ∀ c ∈ w, isSpace c = false) : Tight (x ++ ' ' :: w) := by
  obtain ⟨hxne, hhead, _⟩ := hx
  refine ⟨by simp, ?_, ?_⟩
  · intro c hc
    cases x with
    | nil => exact absurd rfl hxne
    | cons a r => exact hhead c (by simpa using hc)
  · intro c hc
    cases w with
    | nil => exact absurd rfl hne
    | cons b v =>
      rw [List.getLast?_append, List.getLast?_cons_cons] at hc
      have hb : (b :: v).getLast? = some ((b :: v).getLast (by simp)) :=
        List.getLast?_eq_getLast _ _
      rw [hb] at hc
      simp only [Option.or_some, Option.some.injEq] at hc
      rw [← hc]
      exact hw _ (List.getLast_mem _)

theorem splitOn_append_word (x w : List Char) (hw : ∀ c ∈ w, isSpace c = false) :
    (x ++ ' ' :: w).splitOn ' ' = x.splitOn ' ' ++ [w] := by
  have hsingle : w.splitOn ' ' = [w] := by
    apply List.splitOnP_eq_single
    intro c hc h
    have := hw c hc
    simp only [beq_iff_eq] at h
    subst h
    simp [isSpace_space] at this
  induction x with
  | nil =>
    simp only [List.nil_append, List.splitOn, List.splitOnP_cons, beq_self_eq_true, if_true,
      List.splitOnP_nil, List.singleton_append]
    exact congrArg _ hsingle
  | cons a r ih =>
    simp only [List.splitOn] at ih ⊢
    rw [List.cons_append, List.splitOnP_cons, List.splitOnP_cons, ih]
    split
    · rfl
    · cases h : List.splitOnP (fun y => y == ' ') r with
      | nil => exact absurd h (List.splitOnP_ne_nil _ _)
      | cons y ys => rfl

theorem outputWords_append (xs ys : List (List Char)) :
    outputWords (xs ++ ys) = outputWords xs ++ outputWords ys := by
  simp [outputWords]

/-- The loop of `chopLine`, run on words that are non-empty and free of space
characters: reading the output back gives the words already written followed
by the remaining words that fit. -/
theorem chopLoop_words (width : Int) (ws : List (List Char)) :
    ∀ (lines : List (List Char)) (b : List Char) (g : List (List Char)),
      (∀ w ∈ ws, w ≠ [] ∧ ∀ c ∈ w, isSpace c = false) →
      ((b = [] ∧ g = []) ∨ ∃ x, b = x ++ [' '] ∧ Tight x ∧ x.splitOn ' ' = g) →
      outputWords (chopFinish (chopLoop width ws lines b)) =
        outputWords lines ++ g ++ ws.filter (fits width) := by
  induction ws with
  | nil =>
    intro lines b g _ hb
    simp only [chopLoop, chopFinish, List.filter_nil, List.append_nil]
    rcases hb with ⟨hb, hg⟩ | ⟨x, hb, hx, hg⟩
    · subst hb hg
      simp [len]
    · have hlen : len b ≠ 0 := by
        rw [hb, len_append, len_singleton_space]; omega
      rw [if_neg hlen, outputWords_append, hb, Tight_TrimSpace x hx]
      simp [outputWords, hg]
  | cons w ws ih =>
    intro lines b g hws hb
    have hw := hws w (List.mem_cons_self _ _)
    have hws' : ∀ v ∈ ws, v ≠ [] ∧ ∀ c ∈ v, isSpace c = false :=
      fun v hv => hws v (List.mem_cons_of_mem _ hv)
    simp only [chopLoop]
    split
    · rename_i hlong
      have hf : fits width w = false := by
        simp only [fits, decide_eq_false_iff_not]; omega
      rw [List.filter_cons_of_neg (by simp [hf])]
      exact ih lines b g hws' hb
    · rename_i hshort
      have hf : fits width w = true := by
        simp only [fits, decide_eq_true_eq]; omega
      rw [List.filter_cons_of_pos hf]
      split
      · rename_i hfl
        rcases hb with ⟨hb, hg⟩ | ⟨x, hb, hx, hg⟩
        · subst hb
          simp only [len] at hfl
          omega
        · rw [ih (lines ++ [TrimSpace b]) (w ++ [' ']) [w] hws'
            (Or.inr ⟨w, rfl, Tight_of_word w hw.1 hw.2, by
              apply List.splitOnP_eq_single
              intro c hc h
              have := hw.2 c hc
              simp only [beq_iff_eq] at h
              subst h
              simp [isSpace_space] at this⟩)]
          rw [outputWords_append, hb, Tight_TrimSpace x hx]
          simp [outputWords, hg]
      · rcases hb with ⟨hb, hg⟩ | ⟨x, hb, hx, hg⟩
        · subst hb hg
          rw [ih lines ([] ++ (w ++ [' '])) [w] hws'
            (Or.inr ⟨w, by simp, Tight_of_word w hw.1 hw.2, by
              apply List.splitOnP_eq_single
              intro c hc h
              have := hw.2 c hc
              simp only [beq_iff_eq] at h
              subst h
              simp [isSpace_space] at this⟩)]
          simp
        · rw [ih lines (b ++ (w ++ [' '])) (g ++ [w]) hws'
            (Or.inr ⟨x ++ ' ' :: w, by simp [hb], Tight_append_word x w hx hw.1 hw.2, by
              rw [splitOn_append_word x w hw.2, hg]⟩)]
          simp

/-- A line without any non-space character is wrapped to one empty line when
the width is not negative. -/
theorem chopLine_of_blank (line : List Char) (width : Int) (h : TrimSpace line = []) :
    chopLine line width = if 0 ≤ width then [[]] else [] := by
  unfold chopLine
  rw [words_blank line h]
  by_cases hw : 0 ≤ width
  · have h1 : ¬ ((0 : Int) > width) := by omega
    have h2 : ¬ ((0 : Int) + 0 > width) := by omega
    have h3 : TrimSpace [' '] = [] := by decide
    simp only [chopLoop, len, Nat.cast_zero, h1, h2, if_false, hw, if_true, chopFinish,
      List.nil_append]
    rw [if_neg (by decide), h3]
  · have h1 : (0 : Int) > width := by omega
    simp [chopLoop, len, h1, hw, chopFinish]

/-! ## The split at `\n{2,}` and the loop of `chopEssay` -/

theorem NoBlankLine_tail (c : Char) (rest : List Char) (h : NoBlankLine (c :: rest)) :
    NoBlankLine rest := by
  simp only [NoBlankLine, hasBlankLine, Bool.or_eq_false_iff] at h
  exact h.2

theorem NoBlankLine_head (c : Char) (rest : List Char) (h : NoBlankLine (c :: rest))
    (hc : isNewline c = true) : startsNewline rest = false := by
  simp only [NoBlankLine, hasBlankLine, Bool.or_eq_false_iff, Bool.and_eq_false_imp] at h
  exact h.1 hc

theorem splitBlank_cons (flag : Bool) (c : Char) (rest : List Char) :
    splitBlank flag (c :: rest) =
      if isNewline c then
        if flag then splitBlank true rest
        else if startsNewline rest then [] :: splitBlank true rest
        else (splitBlank false rest).modifyHead (List.cons c)
      else (splitBlank false rest).modifyHead (List.cons c) := by
  rw [splitBlank]

theorem splitBlank_flag (s : List Char) (h : startsNewline s = false) :
    splitBlank true s = splitBlank false s := by
  cases s with
  | nil => rfl
  | cons c rest =>
    simp only [startsNewline] at h
    rw [splitBlank_cons, splitBlank_cons]
    simp [h]

/-- A text without a paragraph break is a single paragraph. -/
theorem splitBlank_single (s : List Char) (h : NoBlankLine s) : splitBlank false s = [s] := by
  induction s with
  | nil => rfl
  | cons c rest ih =>
    have hrest : NoBlankLine rest := NoBlankLine_tail c rest h
    have hst : isNewline c = true → startsNewline rest = false :=
      NoBlankLine_head c rest h
    rw [splitBlank_cons, ih hrest]
    by_cases hc : isNewline c = true
    · simp [hc, hst hc]
    · simp [hc]

theorem splitBlank_run (k : Nat) (s : List Char) (h : startsNewline s = false) :
    splitBlank true (List.replicate k '\n' ++ s) = splitBlank false s := by
  induction k with
  | zero => simpa using splitBlank_flag s h
  | succ k ih =>
    have hn : isNewline '\n' = true := by decide
    rw [List.replicate_succ, List.cons_append, splitBlank_cons]
    simp only [hn, if_true]
    exact ih

/-- Two texts without paragraph break, joined by a run of at least two
newlines that is not extended by either of them, are split into exactly these
two paragraphs. -/
theorem splitBlank_two (p1 p2 : List Char) (k : Nat) (hk : 2 ≤ k)
    (hb1 : NoBlankLine p1) (hb2 : NoBlankLine p2)
    (he1 : ∀ c, p1.getLast? = some c → isNewline c = false)
    (hs2 : startsNewline p2 = false) :
    splitBlank false (p1 ++ (List.replicate k '\n' ++ p2)) = [p1, p2] := by
  have hn : isNewline '\n' = true := by decide
  induction p1 with
  | nil =>
    obtain ⟨j, rfl⟩ : ∃ j, k = j + 2 := ⟨k - 2, by omega⟩
    have hst : startsNewline (List.replicate (j + 1) '\n' ++ p2) = true := by
      rw [List.replicate_succ, List.cons_append]; exact hn
    rw [List.nil_append, List.replicate_succ, List.cons_append, splitBlank_cons]
    simp only [hn, if_true, Bool.false_eq_true, if_false, hst]
    rw [splitBlank_run (j + 1) p2 hs2, splitBlank_single p2 hb2]
  | cons c rest ih =>
    have hrest : NoBlankLine rest := NoBlankLine_tail c rest hb1
    have hlast : ∀ d, rest.getLast? = some d → isNewline d = false := by
      cases rest with
      | nil => simp
      | cons b r => simpa [List.getLast?_cons_cons] using he1
    have key : splitBlank false (rest ++ (List.replicate k '\n' ++ p2)) = [rest, p2] :=
      ih hrest hlast
    rw [List.cons_append, splitBlank_cons, key]
    by_cases hc : isNewline c = true
    · have hst : startsNewline (rest ++ (List.replicate k '\n' ++ p2)) = false := by
        cases rest with
        | nil =>
          have := he1 c (by simp)
          rw [hc] at this
          exact absurd this (by simp)
        | cons d r =>
          have := NoBlankLine_head c (d :: r) hb1 hc
          simpa [startsNewline] using this
      simp [hc, hst]
    · simp [hc]

/-! ## The split at `\n` and the loop of `chopParagraph` -/

theorem paragraphLoop_nonempty (length : Int) (ls : List (List Char)) :
    ∀ lines : List (List Char), (∀ l ∈ ls, l ≠ []) →
      paragraphLoop length ls lines = lines ++ (ls.map (fun l => chopLine l length)).flatten := by
  induction ls with
  | nil => intro lines _; simp [paragraphLoop]
  | cons l ls ih =>
    intro lines h
    have hl : len l > 0 :=
      Nat.pos_of_ne_zero (fun h0 => h l (List.mem_cons_self _ _) ((len_eq_zero_iff l).1 h0))
    simp only [paragraphLoop, hl, if_true]
    rw [ih _ (fun v hv => h v (List.mem_cons_of_mem _ hv))]
    simp

theorem dropWhile_append_of_nonblank (p : Char → Bool) (a b : List Char)
    (h : ∃ c ∈ a, p c = false) : (a ++ b).dropWhile p = a.dropWhile p ++ b := by
  rw [List.dropWhile_append]
  have hne : a.dropWhile p ≠ [] := by
    intro h0
    obtain ⟨c, hc, hpc⟩ := h
    have := (List.dropWhile_eq_nil_iff.1 h0) c hc
    rw [hpc] at this
    exact absurd this (by simp)
  cases hd : a.dropWhile p with
  | nil => exact absurd hd hne
  | cons x xs => simp

theorem rdropWhile_append_of_nonblank (p : Char → Bool) (a b : List Char)
    (h : ∃ c ∈ b, p c = false) : (a ++ b).rdropWhile p = a ++ b.rdropWhile p := by
  unfold List.rdropWhile
  rw [List.reverse_append, dropWhile_append_of_nonblank p b.reverse a.reverse
    (by obtain ⟨c, hc, hpc⟩ := h; exact ⟨c, List.mem_reverse.2 hc, hpc⟩)]
  simp

theorem TrimSpace_shape (a m b : List Char) (ha : ∃ c ∈ a, isSpace c = false)
    (hb : ∃ c ∈ b, isSpace c = false) :
    TrimSpace (a ++ (m ++ b)) = a.dropWhile isSpace ++ (m ++ b.rdropWhile isSpace) := by
  unfold TrimSpace
  rw [dropWhile_append_of_nonblank isSpace a (m ++ b) ha, ← List.append_assoc,
    rdropWhile_append_of_nonblank isSpace _ b hb, List.append_assoc]

theorem TrimSpace_dropWhile (l : List Char) : TrimSpace (l.dropWhile isSpace) = TrimSpace l := by
  unfold TrimSpace
  rw [List.dropWhile_idempotent]

theorem TrimSpace_idem (l : List Char) : TrimSpace (TrimSpace l) = TrimSpace l := by
  cases h : TrimSpace l with
  | nil => exact TrimSpace_nil
  | cons a r =>
    have ha := TrimSpace_head l a r h
    have hl := TrimSpace_last l
    rw [h] at hl
    unfold TrimSpace
    rw [List.dropWhile_cons_of_neg (by simp [ha]), List.rdropWhile_eq_self_iff]
    intro hne
    have := hl _ (List.getLast?_eq_getLast _ hne)
    simp [this]

theorem TrimSpace_rdropWhile (l : List Char) :
    TrimSpace (l.rdropWhile isSpace) = TrimSpace l := by
  by_cases hall : ∀ c ∈ l, isSpace c = true
  · have h1 : l.rdropWhile isSpace = [] := List.rdropWhile_eq_nil_iff.2 hall
    rw [h1, TrimSpace_nil, TrimSpace_eq_nil_of_blank l hall]
  · have hex : ∃ c ∈ l, isSpace c = false := by
      by_contra hcon
      apply hall
      intro c hc
      cases hsp : isSpace c with
      | true => rfl
      | false => exact absurd ⟨c, hc, hsp⟩ hcon
    have hd : ∃ c ∈ l.dropWhile isSpace, isSpace c = false := by
      cases hdw : l.dropWhile isSpace with
      | nil =>
        obtain ⟨c, hc, hpc⟩ := hex
        have := (List.dropWhile_eq_nil_iff.1 hdw) c hc
        rw [hpc] at this
        exact absurd this (by simp)
      | cons x xs =>
        have := List.head?_dropWhile_not isSpace l
        rw [hdw] at this
        exact ⟨x, List.mem_cons_self _ _, by simpa using this⟩
    have hsplit : l = l.takeWhile isSpace ++ l.dropWhile isSpace :=
      (List.takeWhile_append_dropWhile isSpace l).symm
    have hr : l.rdropWhile isSpace =
        l.takeWhile isSpace ++ (l.dropWhile isSpace).rdropWhile isSpace := by
      conv_lhs => rw [hsplit]
      exact rdropWhile_append_of_nonblank isSpace _ _ hd
    have htake : (l.takeWhile isSpace).dropWhile isSpace = [] := by
      rw [List.dropWhile_eq_nil_iff]
      intro c hc
      exact List.mem_takeWhile_imp hc
    have hdd : ((l.dropWhile isSpace).rdropWhile isSpace).dropWhile isSpace =
        (l.dropWhile isSpace).rdropWhile isSpace := by
      have := TrimSpace_idem l
      unfold TrimSpace at this
      have h2 : (((l.dropWhile isSpace).rdropWhile isSpace).dropWhile isSpace).length =
          ((l.dropWhile isSpace).rdropWhile isSpace).length := by
        have hle1 := (List.rdropWhile_prefix isSpace
          (((l.dropWhile isSpace).rdropWhile isSpace).dropWhile isSpace)).length_le
        have hle2 := (List.dropWhile_suffix isSpace
          (l := (l.dropWhile isSpace).rdropWhile isSpace)).length_le
        rw [this] at hle1
        omega
      exact (List.dropWhile_suffix isSpace).eq_of_length h2
    show ((l.rdropWhile isSpace).dropWhile isSpace).rdropWhile isSpace = TrimSpace l
    rw [hr, List.dropWhile_append, htake]
    simp only [List.isEmpty_nil, if_true]
    rw [hdd, List.rdropWhile_idempotent]
    rfl

theorem chopLine_congr (l l' : List Char) (width : Int) (h : TrimSpace l' = TrimSpace l) :
    chopLine l' width = chopLine l width := by
  unfold chopLine words
  rw [h]

theorem dropWhile_nonblank (p : Char → Bool) (l : List Char) (h : ∃ c ∈ l, p c = false) :
    ∃ c ∈ l.dropWhile p, p c = false := by
  cases hdw : l.dropWhile p with
  | nil =>
    obtain ⟨c, hc, hpc⟩ := h
    have := (List.dropWhile_eq_nil_iff.1 hdw) c hc
    rw [hpc] at this
    exact absurd this (by simp)
  | cons x xs =>
    have := List.head?_dropWhile_not p l
    rw [hdw] at this
    exact ⟨x, List.mem_cons_self _ _, by simpa using this⟩

theorem rdropWhile_nonblank (p : Char → Bool) (l : List Char) (h : ∃ c ∈ l, p c = false) :
    ∃ c ∈ l.rdropWhile p, p c = false := by
  have hne : l.rdropWhile p ≠ [] := by
    intro h0
    obtain ⟨c, hc, hpc⟩ := h
    have := (List.rdropWhile_eq_nil_iff.1 h0) c hc
    rw [hpc] at this
    exact absurd this (by simp)
  exact ⟨_, List.getLast_mem hne, by simpa using List.rdropWhile_last_not p l hne⟩

theorem ne_nil_of_nonblank (p : Char → Bool) (l : List Char) (h : ∃ c ∈ l, p c = false) :
    l ≠ [] := by
  obtain ⟨c, hc, _⟩ := h
  exact List.ne_nil_of_mem hc

theorem intercalate_cons_of_ne_nil (sep a : List Char) (r : List (List Char)) (hr : r ≠ []) :
    sep.intercalate (a :: r) = a ++ (sep ++ sep.intercalate r) := by
  cases r with
  | nil => exact absurd rfl hr
  | cons b r => simp [List.intercalate, List.intersperse]

theorem intercalate_concat (sep : List Char) (init : List (List Char)) (l : List Char) :
    sep.intercalate (init ++ [l]) = (init.map (fun x => x ++ sep)).flatten ++ l := by
  induction init with
  | nil => simp [List.intercalate]
  | cons a init ih =>
    rw [List.cons_append, intercalate_cons_of_ne_nil sep a (init ++ [l]) (by simp), ih]
    simp

theorem splitNewline_lines (init : List (List Char)) (l : List Char)
    (hinit : ∀ x ∈ init, ∀ c ∈ x, isNewline c = false) (hl : ∀ c ∈ l, isNewline c = false) :
    splitNewline ((init.map (fun x => x ++ ['\n'])).flatten ++ l) = init ++ [l] := by
  induction init with
  | nil =>
    simp only [List.map_nil, List.flatten_nil, List.nil_append]
    exact List.splitOnP_eq_single _ _ (fun c hc => by simp [hl c hc])
  | cons a init ih =>
    have ha : ∀ c ∈ a, ¬ isNewline c = true := fun c hc => by
      simp [hinit a (List.mem_cons_self _ _) c hc]
    have hfirst := List.splitOnP_first isNewline a ha '\n' (by decide)
      ((init.map (fun x => x ++ ['\n'])).flatten ++ l)
    have e : ((a :: init).map (fun x => x ++ ['\n'])).flatten ++ l =
        a ++ '\n' :: ((init.map (fun x => x ++ ['\n'])).flatten ++ l) := by simp
    have ih' := ih (fun x hx => hinit x (List.mem_cons_of_mem _ hx))
    unfold splitNewline at ih' ⊢
    rw [e, hfirst, ih']
    rfl

/-! ## Lines made of two words -/

theorem TrimSpace_of_Tight (x : List Char) (h : Tight x) : TrimSpace x = x := by
  rw [← TrimSpace_append_space x ' ' isSpace_space]
  exact Tight_TrimSpace x h

theorem splitRuns_flag (p : Char → Bool) (s : List Char)
    (h : ∀ c, s.head? = some c → p c = false) :
    splitRuns p true s = splitRuns p false s := by
  cases s with
  | nil => rfl
  | cons c rest =>
    have hc := h c rfl
    simp [splitRuns, hc]

/-- A text without separator is a single piece. -/
theorem splitRuns_single (p : Char → Bool) (s : List Char) (h : ∀ c ∈ s, p c = false) :
    splitRuns p false s = [s] := by
  induction s with
  | nil => rfl
  | cons c rest ih =>
    have hc := h c (List.mem_cons_self _ _)
    simp [splitRuns, hc, ih (fun d hd => h d (List.mem_cons_of_mem _ hd))]

/-- A piece followed by one separator and a text that does not start with a
separator. -/
theorem splitRuns_word (p : Char → Bool) (u rest : List Char) (sep : Char)
    (hu : ∀ c ∈ u, p c = false) (hsep : p sep = true)
    (hrest : ∀ c, rest.head? = some c → p c = false) :
    splitRuns p false (u ++ sep :: rest) = u :: splitRuns p false rest := by
  induction u with
  | nil =>
    simp only [List.nil_append, splitRuns, hsep, if_true, Bool.false_eq_true, if_false]
    rw [splitRuns_flag p rest hrest]
  | cons c u ih =>
    have hc := h_of_mem hu
    simp [splitRuns, hc, ih (fun d hd => hu d (List.mem_cons_of_mem _ hd))]
where
  h_of_mem {c : Char} {u : List Char} (hu : ∀ d ∈ c :: u, p d = false) : p c = false :=
    hu c (List.mem_cons_self _ _)

theorem isReSpace_false_of_isSpace_false (c : Char) (h : isSpace c = false) :
    isReSpace c = false := by
  cases hr : isReSpace c with
  | false => rfl
  | true => rw [isSpace_of_isReSpace c hr] at h; exact absurd h (by simp)

theorem words_two (u v : List Char) (hu : u ≠ []) (hv : v ≠ [])
    (hus : ∀ c ∈ u, isSpace c = false) (hvs : ∀ c ∈ v, isSpace c = false) :
    words (u ++ ' ' :: v) = [u, v] := by
  unfold words
  rw [TrimSpace_of_Tight _ (Tight_append_word u v (Tight_of_word u hu hus) hv hvs)]
  rw [splitRuns_word isReSpace u v ' '
    (fun c hc => isReSpace_false_of_isSpace_false c (hus c hc)) (by decide)
    (fun c hc => isReSpace_false_of_isSpace_false c (hvs c (List.mem_of_mem_head? hc)))]
  rw [splitRuns_single isReSpace v (fun c hc => isReSpace_false_of_isSpace_false c (hvs c hc))]

/-! ## The shape of the output lines -/

theorem ne_space_of_not_isSpace (c : Char) (h : isSpace c = false) : (c == ' ') = false := by
  cases hc : c == ' ' with
  | false => rfl
  | true =>
    rw [beq_iff_eq] at hc
    subst hc
    rw [isSpace_space] at h
    exact absurd h (by simp)

theorem Tight_head_ne_space (x : List Char) (h : Tight x) : x.head? ≠ some ' ' := by
  intro hc
  have := h.2.1 ' ' hc
  rw [isSpace_space] at this
  exact absurd this (by simp)

theorem Tight_last_ne_space (x : List Char) (h : Tight x) : x.getLast? ≠ some ' ' := by
  intro hc
  have := h.2.2 ' ' hc
  rw [isSpace_space] at this
  exact absurd this (by simp)

theorem startsSpace_word (w : List Char) (hw : ∀ c ∈ w, isSpace c = false) :
    startsSpace w = false := by
  cases w with
  | nil => rfl
  | cons c r => exact ne_space_of_not_isSpace c (hw c (List.mem_cons_self _ _))

theorem hasDoubleSpace_word (w : List Char) (hw : ∀ c ∈ w, isSpace c = false) :
    hasDoubleSpace w = false := by
  induction w with
  | nil => rfl
  | cons c r ih =>
    simp [hasDoubleSpace, ne_space_of_not_isSpace c (hw c (List.mem_cons_self _ _)),
      ih (fun d hd => hw d (List.mem_cons_of_mem _ hd))]

theorem hasDoubleSpace_append_word (x w : List Char) (hx : hasDoubleSpace x = false)
    (hl : x.getLast? ≠ some ' ') (hw : ∀ c ∈ w, isSpace c = false) :
    hasDoubleSpace (x ++ ' ' :: w) = false := by
  induction x with
  | nil => simp [hasDoubleSpace, startsSpace_word w hw, hasDoubleSpace_word w hw]
  | cons c r ih =>
    simp only [hasDoubleSpace, Bool.or_eq_false_iff] at hx
    have hr : r.getLast? ≠ some ' ' := by
      cases r with
      | nil => simp
      | cons d r' => simpa [List.getLast?_cons_cons] using hl
    have hst : (c == ' ' && startsSpace (r ++ ' ' :: w)) = false := by
      cases r with
      | nil =>
        have : (c == ' ') = false := by
          cases hc : c == ' ' with
          | false => rfl
          | true =>
            rw [beq_iff_eq] at hc
            subst hc
            exact absurd rfl hl
        simp [this]
      | cons d r' => simpa [startsSpace] using hx.1
    show ((c == ' ' && startsSpace (r ++ ' ' :: w)) || hasDoubleSpace (r ++ ' ' :: w)) = false
    rw [hst, ih hx.2 hr]
    rfl

theorem firstWord_append (x w : List Char) : firstWord (x ++ ' ' :: w) = firstWord x := by
  induction x with
  | nil => simp [firstWord]
  | cons c r ih =>
    simp only [firstWord, List.cons_append, List.takeWhile_cons] at ih ⊢
    rw [ih]

theorem firstWord_word (w : List Char) (hw : ∀ c ∈ w, isSpace c = false) :
    firstWord w = w := by
  induction w with
  | nil => rfl
  | cons c r ih =>
    have hc := ne_space_of_not_isSpace c (hw c (List.mem_cons_self _ _))
    simp only [firstWord, List.takeWhile_cons, bne, hc, Bool.not_false, if_true] at ih ⊢
    rw [ih (fun d hd => hw d (List.mem_cons_of_mem _ hd))]

/-- The loop of `chopLine`, run on words that are non-empty and free of space
characters: every output line is a non-empty text without leading, trailing or
doubled space, and a line is only started by a word that did not fit on the
line before. -/
theorem chopLoop_lines (width : Int) (ws : List (List Char)) :
    ∀ (lines : List (List Char)) (b : List Char),
      (∀ w ∈ ws, w ≠ [] ∧ ∀ c ∈ w, isSpace c = false) →
      (∀ L ∈ lines, Tight L ∧ hasDoubleSpace L = false) →
      lines.Chain' (NoFit width) →
      ((b = [] ∧ lines = []) ∨ ∃ x, b = x ++ [' '] ∧ Tight x ∧ hasDoubleSpace x = false ∧
          ∀ A, lines.getLast? = some A → (len A : Int) + 1 + (len (firstWord x) : Int) > width) →
      (∀ L ∈ chopFinish (chopLoop width ws lines b), Tight L ∧ hasDoubleSpace L = false) ∧
        (chopFinish (chopLoop width ws lines b)).Chain' (NoFit width) := by
  have hflush : ∀ (lines : List (List Char)) (x : List Char),
      (∀ L ∈ lines, Tight L ∧ hasDoubleSpace L = false) → lines.Chain' (NoFit width) →
      Tight x → hasDoubleSpace x = false →
      (∀ A, lines.getLast? = some A → (len A : Int) + 1 + (len (firstWord x) : Int) > width) →
      (∀ L ∈ lines ++ [x], Tight L ∧ hasDoubleSpace L = false) ∧
        (lines ++ [x]).Chain' (NoFit width) := by
    intro lines x hl hch hx hdx hlast
    constructor
    · intro L hL
      rcases List.mem_append.1 hL with h | h
      · exact hl L h
      · rw [List.mem_singleton] at h
        subst h
        exact ⟨hx, hdx⟩
    · rw [List.chain'_append]
      refine ⟨hch, List.chain'_singleton _, ?_⟩
      intro A hA B hB
      simp only [List.head?_cons, Option.mem_def, Option.some.injEq] at hB
      subst hB
      exact hlast A hA
  induction ws with
  | nil =>
    intro lines b _ hl hch hb
    simp only [chopLoop, chopFinish]
    rcases hb with ⟨hb, hlines⟩ | ⟨x, hb, hx, hdx, hlast⟩
    · subst hb hlines
      simp [len]
    · have hlen : len b ≠ 0 := by
        rw [hb, len_append, len_singleton_space]; omega
      rw [if_neg hlen, hb, Tight_TrimSpace x hx]
      exact hflush lines x hl hch hx hdx hlast
  | cons w ws ih =>
    intro lines b hws hl hch hb
    have hw := hws w (List.mem_cons_self _ _)
    have hws' : ∀ v ∈ ws, v ≠ [] ∧ ∀ c ∈ v, isSpace c = false :=
      fun v hv => hws v (List.mem_cons_of_mem _ hv)
    have hTw : Tight w := Tight_of_word w hw.1 hw.2
    have hdw : hasDoubleSpace w = false := hasDoubleSpace_word w hw.2
    simp only [chopLoop]
    split
    · exact ih lines b hws' hl hch hb
    · split
      · rename_i hshort hfl
        rcases hb with ⟨hb, _⟩ | ⟨x, hb, hx, hdx, hlast⟩
        · subst hb
          simp only [len] at hfl
          omega
        · obtain ⟨hl', hch'⟩ := hflush lines x hl hch hx hdx hlast
          rw [hb, Tight_TrimSpace x hx]
          refine ih (lines ++ [x]) (w ++ [' ']) hws' hl' hch' (Or.inr ⟨w, rfl, hTw, hdw, ?_⟩)
          intro A hA
          rw [List.getLast?_concat, Option.some.injEq] at hA
          subst hA
          rw [firstWord_word w hw.2]
          rw [hb, len_append, len_singleton_space] at hfl
          push_cast at hfl
          omega
      · rcases hb with ⟨hb, hlines⟩ | ⟨x, hb, hx, hdx, hlast⟩
        · subst hb hlines
          refine ih [] ([] ++ (w ++ [' '])) hws' hl hch (Or.inr ⟨w, by simp, hTw, hdw, ?_⟩)
          intro A hA
          simp at hA
        · refine ih lines (b ++ (w ++ [' '])) hws' hl hch
            (Or.inr ⟨x ++ ' ' :: w, by simp [hb], Tight_append_word x w hx hw.1 hw.2,
              hasDoubleSpace_append_word x w hdx (Tight_last_ne_space x hx) hw.2, ?_⟩)
          intro A hA
          rw [firstWord_append]
          exact hlast A hA

theorem words_clean (line : List Char) (hne : TrimSpace line ≠ [])
    (hascii : ∀ c ∈ line, isSpace c = true → isReSpace c = true) :
    ∀ w ∈ words line, w ≠ [] ∧ ∀ c ∈ w, isSpace c = false := by
  intro w hw
  obtain ⟨hne', hre, hsub⟩ := words_nice line hne w hw
  refine ⟨hne', fun c hc => ?_⟩
  cases hsp : isSpace c with
  | false => rfl
  | true =>
    have := hascii c (hsub c hc) hsp
    rw [hre c hc] at this
    exact absurd this (by simp)

/-! ## Wrapping the output again -/

theorem chopLoop_filter (width : Int) (ws : List (List Char)) :
    ∀ (lines : List (List Char)) (b : List Char),
      chopLoop width ws lines b = chopLoop width (ws.filter (fits width)) lines b := by
  induction ws with
  | nil => intro lines b; rfl
  | cons w ws ih =>
    intro lines b
    by_cases hlong : (len w : Int) > width
    · have hf : fits width w = false := by
        simp only [fits, decide_eq_false_iff_not]; omega
      rw [List.filter_cons_of_neg (by simp [hf])]
      simp only [chopLoop, hlong, if_true]
      exact ih lines b
    · have hf : fits width w = true := by
        simp only [fits, decide_eq_true_eq]; omega
      rw [List.filter_cons_of_pos hf]
      simp only [chopLoop, hlong, if_false]
      split
      · exact ih _ _
      · exact ih _ _

theorem intercalate_cons_ne_nil {α : Type} (sep a : List α) (r : List (List α)) (hr : r ≠ []) :
    sep.intercalate (a :: r) = a ++ (sep ++ sep.intercalate r) := by
  cases r with
  | nil => exact absurd rfl hr
  | cons b r => simp [List.intercalate, List.intersperse]

theorem intercalate_single {α : Type} (sep a : List α) : sep.intercalate [a] = a := by
  simp [List.intercalate]

theorem intercalate_append_ne_nil {α : Type} (sep : List α) (xs ys : List (List α))
    (hx : xs ≠ []) (hy : ys ≠ []) :
    sep.intercalate (xs ++ ys) = sep.intercalate xs ++ (sep ++ sep.intercalate ys) := by
  induction xs with
  | nil => exact absurd rfl hx
  | cons a xs ih =>
    cases xs with
    | nil =>
      rw [List.singleton_append, intercalate_cons_ne_nil sep a ys hy, intercalate_single]
    | cons b xs' =>
      rw [List.cons_append, intercalate_cons_ne_nil sep a _ (by simp),
        ih (by simp), intercalate_cons_ne_nil sep a _ (by simp)]
      simp

theorem intercalate_flatten {α : Type} (sep : List α) (xss : List (List (List α)))
    (h : ∀ xs ∈ xss, xs ≠ []) :
    sep.intercalate (xss.map (fun xs => sep.intercalate xs)) = sep.intercalate xss.flatten := by
  induction xss with
  | nil => rfl
  | cons xs xss ih =>
    have hxs : xs ≠ [] := h xs (List.mem_cons_self _ _)
    have ih' := ih (fun ys hys => h ys (List.mem_cons_of_mem _ hys))
    cases xss with
    | nil => simp [intercalate_single]
    | cons ys yss =>
      have hne : (ys :: yss).flatten ≠ [] := by
        have hys : ys ≠ [] := h ys (by simp)
        cases ys with
        | nil => exact absurd rfl hys
        | cons y ys' => simp
      have e : (xs :: ys :: yss).flatten = xs ++ (ys :: yss).flatten := rfl
      rw [List.map_cons, intercalate_cons_ne_nil sep _ _ (by simp), ih', e,
        intercalate_append_ne_nil sep xs _ hxs hne]

theorem Tight_join (x y : List Char) (hx : Tight x) (hy : Tight y) : Tight (x ++ ' ' :: y) := by
  obtain ⟨hxne, hhead, _⟩ := hx
  obtain ⟨hyne, _, hlast⟩ := hy
  refine ⟨by simp, ?_, ?_⟩
  · intro c hc
    cases x with
    | nil => exact absurd rfl hxne
    | cons a r => exact hhead c (by simpa using hc)
  · intro c hc
    cases y with
    | nil => exact absurd rfl hyne
    | cons b v =>
      rw [List.getLast?_append, List.getLast?_cons_cons] at hc
      have hb : (b :: v).getLast? = some ((b :: v).getLast (by simp)) :=
        List.getLast?_eq_getLast _ _
      rw [hb] at hc
      simp only [Option.or_some, Option.some.injEq] at hc
      exact hlast c (by rw [hb, hc])

theorem Tight_intercalate (g : List (List Char)) (hne : g ≠ [])
    (hg : ∀ w ∈ g, w ≠ [] ∧ ∀ c ∈ w, isSpace c = false) : Tight ([' '].intercalate g) := by
  induction g with
  | nil => exact absurd rfl hne
  | cons w g ih =>
    have hw := hg w (List.mem_cons_self _ _)
    cases g with
    | nil => rw [intercalate_single]; exact Tight_of_word w hw.1 hw.2
    | cons v g' =>
      rw [intercalate_cons_ne_nil _ w _ (by simp)]
      exact Tight_join w _ (Tight_of_word w hw.1 hw.2)
        (ih (by simp) (fun u hu => hg u (List.mem_cons_of_mem _ hu)))

/-- The words of a text made of words joined by single spaces are these words. -/
theorem words_intercalate (g : List (List Char)) (hne : g ≠ [])
    (hg : ∀ w ∈ g, w ≠ [] ∧ ∀ c ∈ w, isSpace c = false) :
    words ([' '].intercalate g) = g := by
  unfold words
  rw [TrimSpace_of_Tight _ (Tight_intercalate g hne hg)]
  induction g with
  | nil => exact absurd rfl hne
  | cons w g ih =>
    have hw := hg w (List.mem_cons_self _ _)
    have hwr : ∀ c ∈ w, isReSpace c = false :=
      fun c hc => isReSpace_false_of_isSpace_false c (hw.2 c hc)
    cases g with
    | nil => rw [intercalate_single]; exact splitRuns_single isReSpace w hwr
    | cons v g' =>
      have hg' : ∀ u ∈ v :: g', u ≠ [] ∧ ∀ c ∈ u, isSpace c = false :=
        fun u hu => hg u (List.mem_cons_of_mem _ hu)
      have hT := Tight_intercalate (v :: g') (by simp) hg'
      rw [intercalate_cons_ne_nil _ w _ (by simp), List.singleton_append,
        splitRuns_word isReSpace w _ ' ' hwr (by decide)
          (fun c hc => isReSpace_false_of_isSpace_false c (hT.2.1 c hc)),
        ih (by simp) hg']

/-! ## The paragraphs of an essay -/

theorem chopParagraph_congr (p q : List Char) (width : Int) (h : TrimSpace q = TrimSpace p) :
    chopParagraph q width = chopParagraph p width := by
  unfold chopParagraph
  rw [h]

theorem chopParagraph_of_blank (p : List Char) (width : Int) (h : TrimSpace p = []) :
    chopParagraph p width = [] := by
  unfold chopParagraph
  rw [h]
  simp [splitNewline, paragraphLoop, len]

theorem wrappedParagraphs_cons (width : Int) (p : List Char) (ps : List (List Char)) :
    wrappedParagraphs width (p :: ps) =
      if chopParagraph p width = [] then wrappedParagraphs width ps
      else chopParagraph p width :: wrappedParagraphs width ps := by
  unfold wrappedParagraphs
  cases h : chopParagraph p width with
  | nil => simp [h]
  | cons x xs => simp [h]

/-- The wrapped paragraphs depend on the trimmed non-empty paragraphs only. -/
theorem wrappedParagraphs_trimmed (width : Int) (ps : List (List Char)) :
    wrappedParagraphs width (trimmedParagraphs ps) = wrappedParagraphs width ps := by
  induction ps with
  | nil => rfl
  | cons p ps ih =>
    have ih' : wrappedParagraphs width ((ps.map TrimSpace).filter (fun p => !p.isEmpty)) =
        wrappedParagraphs width ps := ih
    by_cases hp : TrimSpace p = []
    · have h1 : trimmedParagraphs (p :: ps) = trimmedParagraphs ps := by
        simp [trimmedParagraphs, hp]
      rw [h1, ih, wrappedParagraphs_cons, chopParagraph_of_blank p width hp, if_pos rfl]
    · have h1 : trimmedParagraphs (p :: ps) = TrimSpace p :: trimmedParagraphs ps := by
        simp [trimmedParagraphs, hp]
      rw [h1, wrappedParagraphs_cons, wrappedParagraphs_cons, ih,
        chopParagraph_congr p (TrimSpace p) width (TrimSpace_idem p)]

/-- The loop of `chopEssay` appends every non-empty wrapped paragraph followed
by one empty line. -/
theorem essayLoop_eq (width : Int) (ps : List (List Char)) :
    ∀ lines : List (List Char), essayLoop width ps lines =
      lines ++ ((wrappedParagraphs width ps).map (fun r => r ++ [[]])).flatten := by
  induction ps with
  | nil => intro lines; simp [essayLoop, wrappedParagraphs]
  | cons p ps ih =>
    intro lines
    rw [wrappedParagraphs_cons]
    simp only [essayLoop]
    by_cases hp : len p > 0
    · simp only [hp, if_true]
      by_cases hc : chopParagraph p width = []
      · simp only [hc, List.length_nil, Nat.lt_irrefl, if_false, if_true]
        exact ih lines
      · have hlen : (chopParagraph p width).length > 0 := List.length_pos.2 hc
        simp only [hlen, if_true, hc, if_false]
        rw [ih]
        simp
    · have hp0 : p = [] := (len_eq_zero_iff p).1 (by omega)
      subst hp0
      simp only [hp, if_false]
      rw [chopParagraph_of_blank [] width TrimSpace_nil, if_pos rfl]
      exact ih lines

theorem intercalate_snoc {α : Type} (sep : List α) (init : List (List α)) (l : List α) :
    sep.intercalate (init ++ [l]) = (init.map (fun x => x ++ sep)).flatten ++ l := by
  induction init with
  | nil => simp [List.intercalate]
  | cons a init ih =>
    rw [List.cons_append, intercalate_cons_ne_nil sep a (init ++ [l]) (by simp), ih]
    simp

theorem flatten_map_append_sep {α : Type} (sep : List α) (rs : List (List α)) (h : rs ≠ []) :
    (rs.map (fun x => x ++ sep)).flatten = sep.intercalate rs ++ sep := by
  rcases List.eq_nil_or_concat rs with hr | ⟨init, l, hr⟩
  · exact absurd hr h
  · rw [List.concat_eq_append] at hr
    subst hr
    rw [intercalate_snoc]
    simp

/-- The result of `chopEssay` in terms of the paragraphs of the split: the
non-empty wrapped paragraphs, joined by one empty line; the loop ends with
this list followed by one more empty line, unless it is empty. -/
theorem chopEssay_eq (essay : List Char) (width : Int) :
    chopEssay essay width =
        ([[]] : List (List Char)).intercalate
          (wrappedParagraphs width (splitBlank false (TrimSpace essay))) ∧
      (essayLoop width (splitBlank false (TrimSpace essay)) [] = [] ∨
        essayLoop width (splitBlank false (TrimSpace essay)) [] =
          chopEssay essay width ++ [[]]) := by
  have hloop := essayLoop_eq width (splitBlank false (TrimSpace essay)) []
  rw [List.nil_append] at hloop
  by_cases hw : wrappedParagraphs width (splitBlank false (TrimSpace essay)) = []
  · have h0 : essayLoop width (splitBlank false (TrimSpace essay)) [] = [] := by
      rw [hloop, hw]; rfl
    have hc : chopEssay essay width = [] := by
      unfold chopEssay
      simp [h0]
    refine ⟨?_, Or.inl h0⟩
    rw [hc, hw]
    rfl
  · rw [flatten_map_append_sep _ _ hw] at hloop
    have hc : chopEssay essay width = ([[]] : List (List Char)).intercalate
        (wrappedParagraphs width (splitBlank false (TrimSpace essay))) := by
      unfold chopEssay
      simp only [hloop]
      rw [if_neg (by simp)]
      exact List.take_left' (by simp)
    exact ⟨hc, Or.inr (by rw [hloop, hc])⟩

theorem TrimSpace_cons_space (c : Char) (w : List Char) (hc : isSpace c = true) :
    TrimSpace (c :: w) = TrimSpace w := by
  unfold TrimSpace
  rw [List.dropWhile_cons_of_pos hc]

theorem trimmedParagraphs_modifyHead (c : Char) (X : List (List Char)) (hc : isSpace c = true) :
    trimmedParagraphs (X.modifyHead (List.cons c)) = trimmedParagraphs X := by
  cases X with
  | nil => rfl
  | cons x xs => simp [trimmedParagraphs, TrimSpace_cons_space c x hc]

theorem isSpace_of_isNewline (c : Char) (h : isNewline c = true) : isSpace c = true := by
  simp only [isNewline, beq_iff_eq] at h
  simp [isSpace, h]

theorem trimmedParagraphs_nil_cons (X : List (List Char)) :
    trimmedParagraphs ([] :: X) = trimmedParagraphs X := by
  simp [trimmedParagraphs, TrimSpace_nil]

/-- Whether a split starts inside a separator or not makes no difference to
the trimmed non-empty paragraphs. -/
theorem trimmedParagraphs_flag (s : List Char) :
    trimmedParagraphs (splitBlank true s) = trimmedParagraphs (splitBlank false s) := by
  cases s with
  | nil => rfl
  | cons c rest =>
    rw [splitBlank_cons, splitBlank_cons]
    by_cases hc : isNewline c = true
    · simp only [hc, if_true, Bool.false_eq_true, if_false]
      by_cases hst : startsNewline rest = true
      · simp only [hst, if_true]
        rw [trimmedParagraphs_nil_cons]
      · have hst' : startsNewline rest = false := by simpa using hst
        simp only [hst', Bool.false_eq_true, if_false]
        rw [trimmedParagraphs_modifyHead c _ (isSpace_of_isNewline c hc),
          splitBlank_flag rest hst']
    · simp [hc]

theorem splitBlank_true_newline (r : List Char) :
    splitBlank true ('\n' :: r) = splitBlank true r := by
  rw [splitBlank_cons]
  have hn : isNewline '\n' = true := by decide
  simp [hn]

/-- A text without paragraph break followed by two newlines is one paragraph
of the split, up to a newline at its end, and the split goes on inside the
separator. -/
theorem splitBlank_paragraph (q r : List Char) (hq : NoBlankLine q) :
    ∃ q', (q' = q ∨ q = q' ++ ['\n']) ∧
      splitBlank false (q ++ '\n' :: '\n' :: r) = q' :: splitBlank true r := by
  have hn : isNewline '\n' = true := by decide
  induction q with
  | nil =>
    refine ⟨[], Or.inl rfl, ?_⟩
    rw [List.nil_append, splitBlank_cons]
    simp only [hn, if_true, Bool.false_eq_true, if_false, startsNewline]
    rw [splitBlank_true_newline]
  | cons c q ih =>
    obtain ⟨q', hq', hsplit⟩ := ih (NoBlankLine_tail c q hq)
    rw [List.cons_append, splitBlank_cons]
    by_cases hc : isNewline c = true
    · cases q with
      | nil =>
        have hc' : c = '\n' := by
          simp only [isNewline, beq_iff_eq] at hc
          exact Char.ext (by
            have : c.toNat = '\n'.toNat := hc
            exact UInt32.ext (by simpa [Char.toNat] using this))
        refine ⟨[], Or.inr (by simp [hc']), ?_⟩
        simp only [hc, if_true, Bool.false_eq_true, if_false, List.nil_append, startsNewline, hn]
        rw [splitBlank_true_newline, splitBlank_true_newline]
      | cons d q1 =>
        have hst := NoBlankLine_head c (d :: q1) hq hc
        have hst' : startsNewline ((d :: q1) ++ '\n' :: '\n' :: r) = false := by
          simpa [startsNewline] using hst
        refine ⟨c :: q', ?_, ?_⟩
        · rcases hq' with h | h
          · exact Or.inl (by rw [h])
          · exact Or.inr (by rw [h]; rfl)
        · simp only [hc, if_true, Bool.false_eq_true, if_false, hst']
          rw [hsplit]
          rfl
    · refine ⟨c :: q', ?_, ?_⟩
      · rcases hq' with h | h
        · exact Or.inl (by rw [h])
        · exact Or.inr (by rw [h]; rfl)
      · simp only [hc, Bool.false_eq_true, if_false]
        rw [hsplit]
        rfl

theorem trimmedParagraphs_cons_congr (q q' : List Char) (X Y : List (List Char))
    (hq : TrimSpace q' = TrimSpace q) (hX : trimmedParagraphs X = trimmedParagraphs Y) :
    trimmedParagraphs (q' :: X) = trimmedParagraphs (q :: Y) := by
  unfold trimmedParagraphs at hX ⊢
  simp only [List.map_cons, List.filter_cons, hq, hX]

/-- Paragraphs without paragraph break, joined by two newlines, are recovered
by the split up to trimming. -/
theorem trimmedParagraphs_split (qs : List (List Char)) (hqs : ∀ q ∈ qs, NoBlankLine q) :
    trimmedParagraphs (splitBlank false (['\n', '\n'].intercalate qs)) =
      trimmedParagraphs qs := by
  induction qs with
  | nil => decide
  | cons q qs ih =>
    have hq := hqs q (List.mem_cons_self _ _)
    cases qs with
    | nil => rw [intercalate_single, splitBlank_single q hq]
    | cons q2 qs' =>
      have ih' := ih (fun x hx => hqs x (List.mem_cons_of_mem _ hx))
      obtain ⟨q', hq', hsplit⟩ :=
        splitBlank_paragraph q (['\n', '\n'].intercalate (q2 :: qs')) hq
      rw [intercalate_cons_ne_nil _ q _ (by simp)]
      have e : q ++ (['\n', '\n'] ++ ['\n', '\n'].intercalate (q2 :: qs')) =
          q ++ '\n' :: '\n' :: ['\n', '\n'].intercalate (q2 :: qs') := rfl
      rw [e, hsplit]
      apply trimmedParagraphs_cons_congr
      · rcases hq' with h | h
        · rw [h]
        · rw [h, TrimSpace_append_space q' '\n' (by decide)]
      · rw [trimmedParagraphs_flag]
        exact ih'

theorem NoBlankLine_suffix (a b : List Char) (h : NoBlankLine (a ++ b)) : NoBlankLine b := by
  induction a with
  | nil => exact h
  | cons c a ih => exact ih (NoBlankLine_tail c (a ++ b) h)

theorem NoBlankLine_of_prefix (a b : List Char) (h : NoBlankLine (a ++ b)) : NoBlankLine a := by
  induction a with
  | nil => rfl
  | cons c a ih =>
    have ht := ih (NoBlankLine_tail c (a ++ b) h)
    have hh : isNewline c = true → startsNewline a = false := by
      intro hc
      have := NoBlankLine_head c (a ++ b) h hc
      cases a with
      | nil => rfl
      | cons d a' => simpa [startsNewline] using this
    unfold NoBlankLine at ht ⊢
    simp only [hasBlankLine, ht, Bool.or_false, Bool.and_eq_false_imp]
    exact hh

theorem NoBlankLine_dropWhile (p : List Char) (h : NoBlankLine p) :
    NoBlankLine (p.dropWhile isSpace) := by
  have e := List.takeWhile_append_dropWhile isSpace p
  rw [← e] at h
  exact NoBlankLine_suffix _ _ h

theorem NoBlankLine_rdropWhile (p : List Char) (h : NoBlankLine p) :
    NoBlankLine (p.rdropWhile isSpace) := by
  obtain ⟨t, ht⟩ := List.rdropWhile_prefix isSpace p
  rw [← ht] at h
  exact NoBlankLine_of_prefix _ _ h

theorem dropWhile_append_of_all (p : Char → Bool) (a b : List Char)
    (h : ∀ c ∈ a, p c = true) : (a ++ b).dropWhile p = b.dropWhile p := by
  induction a with
  | nil => rfl
  | cons c a ih =>
    rw [List.cons_append, List.dropWhile_cons_of_pos (h c (List.mem_cons_self _ _))]
    exact ih (fun d hd => h d (List.mem_cons_of_mem _ hd))

theorem rdropWhile_append_of_all (p : Char → Bool) (a b : List Char)
    (h : ∀ c ∈ b, p c = true) : (a ++ b).rdropWhile p = a.rdropWhile p := by
  unfold List.rdropWhile
  rw [List.reverse_append, dropWhile_append_of_all p b.reverse a.reverse
    (fun c hc => h c (List.mem_reverse.1 hc))]

theorem blank_or_nonblank (p : List Char) :
    (∀ c ∈ p, isSpace c = true) ∨ ∃ c ∈ p, isSpace c = false := by
  by_cases hall : ∀ c ∈ p, isSpace c = true
  · exact Or.inl hall
  · right
    by_contra hcon
    apply hall
    intro c hc
    cases hsp : isSpace c with
    | true => rfl
    | false => exact absurd ⟨c, hc, hsp⟩ hcon

theorem trimmedParagraphs_cons_blank (p : List Char) (ps : List (List Char))
    (h : ∀ c ∈ p, isSpace c = true) : trimmedParagraphs (p :: ps) = trimmedParagraphs ps := by
  simp [trimmedParagraphs, TrimSpace_eq_nil_of_blank p h]

theorem trimmedParagraphs_append (xs ys : List (List Char)) :
    trimmedParagraphs (xs ++ ys) = trimmedParagraphs xs ++ trimmedParagraphs ys := by
  simp [trimmedParagraphs]

theorem sep_blank : ∀ c ∈ ['\n', '\n'], isSpace c = true := by decide

/-- Removing the leading space characters of a joined list of paragraphs
gives a joined list of paragraphs with the same trimmed paragraphs. -/
theorem dropWhile_intercalate (ps : List (List Char)) (hps : ∀ p ∈ ps, NoBlankLine p) :
    ∃ ps1, (['\n', '\n'].intercalate ps).dropWhile isSpace = ['\n', '\n'].intercalate ps1 ∧
      trimmedParagraphs ps1 = trimmedParagraphs ps ∧ ∀ p ∈ ps1, NoBlankLine p := by
  induction ps with
  | nil => exact ⟨[], rfl, rfl, by simp⟩
  | cons p ps ih =>
    have hp := hps p (List.mem_cons_self _ _)
    have hps' : ∀ q ∈ ps, NoBlankLine q := fun q hq => hps q (List.mem_cons_of_mem _ hq)
    cases ps with
    | nil =>
      refine ⟨[p.dropWhile isSpace], ?_, ?_, ?_⟩
      · rw [intercalate_single, intercalate_single]
      · simp [trimmedParagraphs, TrimSpace_dropWhile]
      · intro q hq
        rw [List.mem_singleton] at hq
        subst hq
        exact NoBlankLine_dropWhile p hp
    | cons p2 ps' =>
      rw [intercalate_cons_ne_nil _ p _ (by simp)]
      rcases blank_or_nonblank p with hb | hn
      · obtain ⟨ps1, h1, h2, h3⟩ := ih hps'
        refine ⟨ps1, ?_, ?_, h3⟩
        · rw [dropWhile_append_of_all isSpace p _ hb,
            dropWhile_append_of_all isSpace _ _ sep_blank]
          exact h1
        · rw [h2, trimmedParagraphs_cons_blank p _ hb]
      · refine ⟨p.dropWhile isSpace :: p2 :: ps', ?_, ?_, ?_⟩
        · rw [dropWhile_append_of_nonblank isSpace p _ hn,
            intercalate_cons_ne_nil _ (p.dropWhile isSpace) (p2 :: ps') (by simp)]
        · exact trimmedParagraphs_cons_congr p _ _ _ (TrimSpace_dropWhile p) rfl
        · intro q hq
          rcases List.mem_cons.1 hq with h | h
          · subst h
            exact NoBlankLine_dropWhile p hp
          · exact hps' q h

/-- Removing the trailing space characters of a joined list of paragraphs
gives a joined list of paragraphs with the same trimmed paragraphs. -/
theorem rdropWhile_intercalate (ps : List (List Char)) (hps : ∀ p ∈ ps, NoBlankLine p) :
    ∃ ps2, (['\n', '\n'].intercalate ps).rdropWhile isSpace = ['\n', '\n'].intercalate ps2 ∧
      trimmedParagraphs ps2 = trimmedParagraphs ps ∧ ∀ p ∈ ps2, NoBlankLine p := by
  induction ps using List.reverseRecOn with
  | nil => exact ⟨[], by simp [List.intercalate], rfl, by simp⟩
  | append_singleton init p ih =>
    have hp := hps p (by simp)
    have hinit : ∀ q ∈ init, NoBlankLine q := fun q hq => hps q (by simp [hq])
    rcases List.eq_nil_or_concat init with hi | ⟨init', l, hi⟩
    · subst hi
      refine ⟨[p.rdropWhile isSpace], ?_, ?_, ?_⟩
      · rw [List.nil_append, intercalate_single, intercalate_single]
      · simp [trimmedParagraphs, TrimSpace_rdropWhile]
      · intro q hq
        rw [List.mem_singleton] at hq
        subst hq
        exact NoBlankLine_rdropWhile p hp
    · have hne : init ≠ [] := by rw [hi]; simp
      rw [intercalate_append_ne_nil _ init [p] hne (by simp), intercalate_single]
      rcases blank_or_nonblank p with hb | hn
      · obtain ⟨ps2, h1, h2, h3⟩ := ih hinit
        refine ⟨ps2, ?_, ?_, h3⟩
        · have hall : ∀ c ∈ ['\n', '\n'] ++ p, isSpace c = true := by
            intro c hc
            rcases List.mem_append.1 hc with h | h
            · exact sep_blank c h
            · exact hb c h
          rw [rdropWhile_append_of_all isSpace _ _ hall]
          exact h1
        · rw [h2, trimmedParagraphs_append]
          have : trimmedParagraphs [p] = [] := by
            simp [trimmedParagraphs, TrimSpace_eq_nil_of_blank p hb]
          rw [this, List.append_nil]
      · refine ⟨init ++ [p.rdropWhile isSpace], ?_, ?_, ?_⟩
        · rw [intercalate_append_ne_nil _ init [_] hne (by simp), intercalate_single,
            ← List.append_assoc, rdropWhile_append_of_nonblank isSpace _ p hn,
            List.append_assoc]
        · rw [trimmedParagraphs_append, trimmedParagraphs_append]
          congr 1
          simp [trimmedParagraphs, TrimSpace_rdropWhile]
        · intro q hq
          rcases List.mem_append.1 hq with h | h
          · exact hinit q h
          · rw [List.mem_singleton] at h
            subst h
            exact NoBlankLine_rdropWhile p hp

/-- The paragraphs that `chopEssay` finds in a joined list of paragraphs are,
up to trimming and empty paragraphs, the paragraphs of the list. -/
theorem trimmedParagraphs_essay (ps : List (List Char)) (hps : ∀ p ∈ ps, NoBlankLine p) :
    trimmedParagraphs (splitBlank false (TrimSpace (['\n', '\n'].intercalate ps))) =
      trimmedParagraphs ps := by
  obtain ⟨ps1, h1, h2, h3⟩ := dropWhile_intercalate ps hps
  obtain ⟨ps2, k1, k2, k3⟩ := rdropWhile_intercalate ps1 h3
  unfold TrimSpace
  rw [h1, k1, trimmedParagraphs_split ps2 k3, k2, h2]

/-! ## Piped input and positional arguments -/

/-- With non-empty piped input, `readArgs` returns the positional arguments
followed by the piped text. -/
theorem readArgs_piped (flagArgs : List (List Char)) (size : Int) (piped : List Char)
    (hsize : size > 0) :
    readArgs flagArgs ⟨some size, some piped⟩ = some (flagArgs ++ [piped]) := by
  simp [readArgs, hsize]

/-- With non-empty piped input and no positional argument, `main` wraps the
piped text. -/
theorem mainRun_piped_alone (l : Int) (p s : List Char) (size : Int) (piped : List Char)
    (hsize : size > 0) :
    mainRun l p s [] ⟨some size, some piped⟩ = Outcome.printed (mainOutput l p s piped) := by
  simp [mainRun, readArgs_piped [] size piped hsize]

/-- With non-empty piped input and at least one positional argument, `main`
reports too many arguments. -/
theorem mainRun_piped_with_args (l : Int) (p s : List Char) (a : List Char)
    (flagArgs : List (List Char)) (size : Int) (piped : List Char) (hsize : size > 0) :
    mainRun l p s (a :: flagArgs) ⟨some size, some piped⟩ = Outcome.tooMany := by
  simp [mainRun, readArgs_piped (a :: flagArgs) size piped hsize]

/-! ## The words of a line -/

/-- The split at runs of separators and the split at every separator have the
same non-empty pieces. -/
theorem splitRuns_splitOnP (p : Char → Bool) (s : List Char) :
    (∃ x xs ys, splitRuns p false s = x :: xs ∧ s.splitOnP p = x :: ys ∧
        xs.filter (fun w => !w.isEmpty) = ys.filter (fun w => !w.isEmpty)) ∧
      (splitRuns p true s).filter (fun w => !w.isEmpty) =
        (s.splitOnP p).filter (fun w => !w.isEmpty) := by
  induction s with
  | nil => exact ⟨⟨[], [], [], rfl, rfl, rfl⟩, rfl⟩
  | cons c rest ih =>
    obtain ⟨⟨x, xs, ys, h1, h2, h3⟩, hB⟩ := ih
    by_cases hc : p c = true
    · constructor
      · refine ⟨[], splitRuns p true rest, rest.splitOnP p, ?_, ?_, hB⟩
        · simp [splitRuns, hc]
        · simp [List.splitOnP_cons, hc]
      · have e1 : splitRuns p true (c :: rest) = splitRuns p true rest := by
          simp [splitRuns, hc]
        have e2 : (c :: rest).splitOnP p = [] :: rest.splitOnP p := by
          simp [List.splitOnP_cons, hc]
        rw [e1, e2, hB]
        simp
    · have e1 : ∀ flag, splitRuns p flag (c :: rest) = (c :: x) :: xs := by
        intro flag
        simp [splitRuns, hc, h1]
      have e2 : (c :: rest).splitOnP p = (c :: x) :: ys := by
        simp [List.splitOnP_cons, hc, h2]
      constructor
      · exact ⟨c :: x, xs, ys, e1 false, e2, h3⟩
      · rw [e1 true, e2]
        simp [h3]

theorem splitOnP_congr (p q : Char → Bool) (s : List Char) (h : ∀ c ∈ s, p c = q c) :
    s.splitOnP p = s.splitOnP q := by
  induction s with
  | nil => rfl
  | cons c rest ih =>
    rw [List.splitOnP_cons, List.splitOnP_cons, h c (List.mem_cons_self _ _),
      ih (fun d hd => h d (List.mem_cons_of_mem _ hd))]

theorem Fields_cons_space (c : Char) (s : List Char) (hc : isSpace c = true) :
    Fields (c :: s) = Fields s := by
  simp [Fields, List.splitOnP_cons, hc]

theorem Fields_dropWhile (s : List Char) : Fields (s.dropWhile isSpace) = Fields s := by
  induction s with
  | nil => rfl
  | cons c rest ih =>
    by_cases hc : isSpace c = true
    · rw [List.dropWhile_cons_of_pos hc, ih, Fields_cons_space c rest hc]
    · rw [List.dropWhile_cons_of_neg hc]

theorem splitOnP_concat_sep (p : Char → Bool) (s : List Char) (c : Char) (hc : p c = true) :
    (s ++ [c]).splitOnP p = s.splitOnP p ++ [[]] := by
  induction s with
  | nil => simp [List.splitOnP_cons, hc]
  | cons a s ih =>
    rw [List.cons_append, List.splitOnP_cons, List.splitOnP_cons, ih]
    split
    · rfl
    · cases h : List.splitOnP p s with
      | nil => exact absurd h (List.splitOnP_ne_nil _ _)
      | cons y ys => rfl

theorem Fields_rdropWhile (s : List Char) : Fields (s.rdropWhile isSpace) = Fields s := by
  induction s using List.reverseRecOn with
  | nil => rfl
  | append_singleton init c ih =>
    by_cases hc : isSpace c = true
    · rw [List.rdropWhile_concat_pos _ _ _ hc, ih]
      unfold Fields
      rw [splitOnP_concat_sep isSpace init c hc]
      simp
    · rw [List.rdropWhile_concat_neg _ _ _ hc]

theorem Fields_TrimSpace (s : List Char) : Fields (TrimSpace s) = Fields s := by
  unfold TrimSpace
  rw [Fields_rdropWhile, Fields_dropWhile]

/-- On a line with a non-space character whose space characters all belong to
`\s`, the words of `chopLine` are the whitespace-separated words of the line. -/
theorem words_eq_Fields (line : List Char) (hne : TrimSpace line ≠ [])
    (hascii : ∀ c ∈ line, isSpace c = true → isReSpace c = true) :
    words line = Fields line := by
  have hall : ∀ w ∈ words line, (fun w : List Char => !w.isEmpty) w = true := by
    intro w hw
    have := (words_nice line hne w hw).1
    cases w with
    | nil => exact absurd rfl this
    | cons a r => rfl
  have h1 : words line = (words line).filter (fun w => !w.isEmpty) :=
    (List.filter_eq_self.2 hall).symm
  obtain ⟨⟨x, xs, ys, e1, e2, e3⟩, _⟩ := splitRuns_splitOnP isReSpace (TrimSpace line)
  have h2 : (words line).filter (fun w => !w.isEmpty) =
      ((TrimSpace line).splitOnP isReSpace).filter (fun w => !w.isEmpty) := by
    unfold words
    rw [e1, e2, List.filter_cons, List.filter_cons, e3]
  have h3 : (TrimSpace line).splitOnP isReSpace = (TrimSpace line).splitOnP isSpace := by
    apply splitOnP_congr
    intro c hc
    have hmem := (TrimSpace_sublist line).subset hc
    cases hsp : isSpace c with
    | true => exact hascii c hmem hsp
    | false => exact isReSpace_false_of_isSpace_false c hsp
  rw [h1, h2, h3]
  exact Fields_TrimSpace line

theorem TrimSpace_ne_nil_of_word (line : List Char) (hword : ∃ c ∈ line, isSpace c = false) :
    TrimSpace line ≠ [] :=
  ne_nil_of_nonblank isSpace _
    (rdropWhile_nonblank isSpace _ (dropWhile_nonblank isSpace line hword))

/-! ## The model on the documented examples -/

/-- The library model on small inputs: `strings.TrimSpace` removes `\v` and
U+00A0 as well, the class `\s` does not contain them, and `Split` keeps an
empty first or last piece and returns one empty piece for the empty text. -/
theorem model_examples :
    TrimSpace " \t a b \x0b\u00a0\n".toList = "a b".toList ∧
      isReSpace '\x0b' = false ∧ isReSpace '\u00a0' = false ∧
      splitRuns isReSpace false "a \t b".toList = ["a".toList, "b".toList] ∧
      splitRuns isReSpace false " a ".toList = [[], "a".toList, []] ∧
      splitRuns isReSpace false [] = [[]] ∧
      splitNewline "a\n\nb\n".toList = ["a".toList, [], "b".toList, []] ∧
      splitBlank false "a\nb\n\n\nc\n\n".toList = ["a\nb".toList, "c".toList, []] ∧
      splitBlank false [] = [[]] := by
  decide

/-- The scenarios of the specification that the code reproduces. -/
theorem spec_scenarios :
    chopLine "the quick brown fox".toList 10 = ["the quick".toList, "brown fox".toList] ∧
      chopLine "supercalifragilisticexpialidocious".toList 10 = [] ∧
      chopParagraph "line one\nline two".toList 20 = ["line one".toList, "line two".toList] ∧
      chopEssay "Para one text.\n\nPara two text.".toList 80 =
        ["Para one text.".toList, [], "Para two text.".toList] ∧
      chopEssay [] 80 = [] := by
  decide

/-! ## Claims -/

/-- C1 (width bound): for a line without newline and a width of at least 1,
every line returned by `chopLine` has at most `width` bytes; the bound holds
for the empty output lines as well. -/
theorem chopLine_width_bound (line : List Char) (width : Int)
    (_hline : ∀ c ∈ line, isNewline c = false) (_hwidth : 1 ≤ width) :
    ∀ L ∈ chopLine line width, (len L : Int) ≤ width :=
  chopLine_bound line width

theorem chopLine_width_bound_witness :
    (∀ c ∈ "the quick brown fox".toList, isNewline c = false) ∧ (1 : Int) ≤ 10 ∧
      ∀ L ∈ chopLine "the quick brown fox".toList 10, (len L : Int) ≤ 10 :=
  ⟨by decide, by decide, chopLine_width_bound _ 10 (by decide) (by decide)⟩

/-- C2, amended (word order preservation): for a line without newline that
contains a non-space character and whose space characters all belong to the
class `\s`, the words read back from the lines of `chopLine` (each line split
at single spaces, in output order) are exactly the whitespace-separated words
of the line that are not longer than `width`, in their original order. -/
theorem chopLine_words_preserved (line : List Char) (width : Int)
    (_hline : ∀ c ∈ line, isNewline c = false)
    (hword : ∃ c ∈ line, isSpace c = false)
    (hascii : ∀ c ∈ line, isSpace c = true → isReSpace c = true) :
    outputWords (chopLine line width) = (Fields line).filter (fits width) := by
  have ht : TrimSpace line ≠ [] := TrimSpace_ne_nil_of_word line hword
  rw [← words_eq_Fields line ht hascii]
  unfold chopLine
  rw [chopLoop_words width (words line) [] [] [] (words_clean line ht hascii)
    (Or.inl ⟨rfl, rfl⟩)]
  simp [outputWords]

theorem chopLine_words_preserved_witness :
    (∀ c ∈ "the  quick brown\tfox extraordinarily".toList, isNewline c = false) ∧
      (∃ c ∈ "the  quick brown\tfox extraordinarily".toList, isSpace c = false) ∧
      (∀ c ∈ "the  quick brown\tfox extraordinarily".toList,
        isSpace c = true → isReSpace c = true) ∧
      Fields "the  quick brown\tfox extraordinarily".toList =
        ["the".toList, "quick".toList, "brown".toList, "fox".toList,
          "extraordinarily".toList] ∧
      outputWords (chopLine "the  quick brown\tfox extraordinarily".toList 10) =
        ["the".toList, "quick".toList, "brown".toList, "fox".toList] ∧
      outputWords (chopLine "the  quick brown\tfox extraordinarily".toList 10) =
        (Fields "the  quick brown\tfox extraordinarily".toList).filter (fits 10) :=
  ⟨by decide, by decide, by decide, by decide, by decide,
    chopLine_words_preserved _ 10 (by decide) (by decide) (by decide)⟩

/-- C2 as stated fails: in the line `a`, space, U+00A0, space, `b` the
whitespace-separated words are `a` and `b`, and the no-break space (2 bytes) is
a token of its own for the `\s+` split of the code; at width 3 it is flushed as
a line of its own, which `strings.TrimSpace` empties, so the words read back
from the output are `a`, the empty string and `b`: neither the words nor the
tokens of the line. -/
theorem chopLine_words_counterexample :
    (∀ c ∈ "a \u00a0 b".toList, isNewline c = false) ∧
      Fields "a \u00a0 b".toList = ["a".toList, "b".toList] ∧
      words "a \u00a0 b".toList = ["a".toList, "\u00a0".toList, "b".toList] ∧
      chopLine "a \u00a0 b".toList 3 = ["a".toList, [], "b".toList] ∧
      outputWords (chopLine "a \u00a0 b".toList 3) = ["a".toList, [], "b".toList] ∧
      outputWords (chopLine "a \u00a0 b".toList 3) ≠
        (Fields "a \u00a0 b".toList).filter (fits 3) ∧
      outputWords (chopLine "a \u00a0 b".toList 3) ≠
        (words "a \u00a0 b".toList).filter (fits 3) := by
  decide

/-- C3, amended (oversized-word drop): for a line without newline that
contains a non-space character and whose space characters all belong to the
class `\s`, if every whitespace-separated word of the line is longer than
`width`, then `chopLine` returns no line at all. -/
theorem chopLine_all_oversized (line : List Char) (width : Int)
    (_hline : ∀ c ∈ line, isNewline c = false) (hword : ∃ c ∈ line, isSpace c = false)
    (hascii : ∀ c ∈ line, isSpace c = true → isReSpace c = true)
    (hlong : ∀ w ∈ Fields line, width < (len w : Int)) :
    chopLine line width = [] := by
  have ht : TrimSpace line ≠ [] := TrimSpace_ne_nil_of_word line hword
  rw [← words_eq_Fields line ht hascii] at hlong
  unfold chopLine
  rw [chopLoop_all_dropped width (words line) [] [] hlong]
  rfl

theorem chopLine_all_oversized_witness :
    (∀ c ∈ "supercalifragilisticexpialidocious".toList, isNewline c = false) ∧
      (∃ c ∈ "supercalifragilisticexpialidocious".toList, isSpace c = false) ∧
      (∀ c ∈ "supercalifragilisticexpialidocious".toList,
        isSpace c = true → isReSpace c = true) ∧
      Fields "supercalifragilisticexpialidocious".toList =
        ["supercalifragilisticexpialidocious".toList] ∧
      (∀ w ∈ Fields "supercalifragilisticexpialidocious".toList, (10 : Int) < (len w : Int)) ∧
      chopLine "supercalifragilisticexpialidocious".toList 10 = [] :=
  ⟨by decide, by decide, by decide, by decide, by decide,
    chopLine_all_oversized _ 10 (by decide) (by decide) (by decide) (by decide)⟩

/-- C3 as stated fails: the whitespace-separated words of the line `aa`, space,
`\v`, space, `bb` are `aa` and `bb`, both longer than the width 1, but the
vertical tab is a token of its own for the `\s+` split of the code and fits,
so it is written to the builder and flushed as a line that
`strings.TrimSpace` empties: `chopLine` returns one empty line.  Reading
"word" as a token of `\s+` does not help: the only token of the line `\v` is
longer than the width 0, and `chopLine` again returns one empty line, since it
trims the line first. -/
theorem chopLine_all_oversized_counterexample :
    (∀ c ∈ "aa \x0b bb".toList, isNewline c = false) ∧
      (∃ c ∈ "aa \x0b bb".toList, isSpace c = false) ∧
      Fields "aa \x0b bb".toList = ["aa".toList, "bb".toList] ∧
      (∀ w ∈ Fields "aa \x0b bb".toList, (1 : Int) < (len w : Int)) ∧
      chopLine "aa \x0b bb".toList 1 = [[]] ∧
      chopLine "aa \x0b bb".toList 1 ≠ [] ∧
      splitRuns isReSpace false "\x0b".toList = ["\x0b".toList] ∧
      (∀ w ∈ splitRuns isReSpace false "\x0b".toList, (0 : Int) < (len w : Int)) ∧
      chopLine "\x0b".toList 0 = [[]] := by
  decide

/-- C4, amended (line length with prefix and suffix): for a configured length
`l` in the range of Go's `int` such that `l - len(p) - len(s)` is not below
`-2^63`, the width computed by `main` is `l - len(p) - len(s)`, every line of
`chopEssay` at that width satisfies `len(p) + len(line) + len(s) ≤ l`, and
every line `p+line+s` written by `main` has at most `l` bytes. -/
theorem main_line_length (essay p s : List Char) (l : Int)
    (hl : l < 9223372036854775808)
    (hlow : -9223372036854775808 ≤ l - (len p : Int) - (len s : Int)) :
    goWidth l p s = l - (len p : Int) - (len s : Int) ∧
      (∀ line ∈ chopEssay essay (goWidth l p s),
        (len p : Int) + (len line : Int) + (len s : Int) ≤ l) ∧
      ∀ out ∈ mainOutput l p s essay, (len out : Int) ≤ l := by
  have hw : goWidth l p s = l - (len p : Int) - (len s : Int) := by
    unfold goWidth wrap64
    omega
  have key : ∀ line ∈ chopEssay essay (goWidth l p s),
      (len p : Int) + (len line : Int) + (len s : Int) ≤ l := by
    intro line h
    have := chopEssay_bound essay _ line h
    omega
  refine ⟨hw, key, ?_⟩
  intro out hout
  unfold mainOutput at hout
  obtain ⟨line, hline, rfl⟩ := List.mem_map.1 hout
  have := key line hline
  rw [len_append, len_append]
  push_cast
  omega

theorem main_line_length_witness :
    (12 : Int) < 9223372036854775808 ∧
      (-9223372036854775808 : Int) ≤ 12 - (len "> ".toList : Int) - (len " <".toList : Int) ∧
      mainOutput 12 "> ".toList " <".toList "the quick brown fox".toList =
        ["> the <".toList, "> quick <".toList, "> brown <".toList, "> fox <".toList] ∧
      (goWidth 12 "> ".toList " <".toList =
          12 - (len "> ".toList : Int) - (len " <".toList : Int) ∧
        (∀ line ∈ chopEssay "the quick brown fox".toList (goWidth 12 "> ".toList " <".toList),
          (len "> ".toList : Int) + (len line : Int) + (len " <".toList : Int) ≤ 12) ∧
        ∀ out ∈ mainOutput 12 "> ".toList " <".toList "the quick brown fox".toList,
          (len out : Int) ≤ 12) :=
  ⟨by decide, by decide, by decide,
    main_line_length "the quick brown fox".toList "> ".toList " <".toList 12
      (by decide) (by decide)⟩

/-- C4 as stated fails: for `l` the least value of Go's `int`, the prefix `a`
and no suffix, `l-len(p)-len(s)` wraps around to the greatest value, so the
essay `hello` is wrapped to the line `hello` and `main` writes `ahello`, of
6 bytes, which is more than `l`. -/
theorem main_line_length_counterexample :
    goWidth (-9223372036854775808) "a".toList [] = 9223372036854775807 ∧
      chopEssay "hello".toList (goWidth (-9223372036854775808) "a".toList []) =
        ["hello".toList] ∧
      mainOutput (-9223372036854775808) "a".toList [] "hello".toList = ["ahello".toList] ∧
      ¬ ((len "a".toList : Int) + (len "hello".toList : Int) + (len ([] : List Char) : Int) ≤
        -9223372036854775808) ∧
      ¬ ((len "ahello".toList : Int) ≤ -9223372036854775808) := by
  decide

/-- C5, amended (paragraph separation): when the trimmed essay consists of two
non-empty paragraphs `p1` and `p2` separated by a run of two or more newlines,
and both paragraphs have a non-empty wrapping at `width`, the output of
`chopEssay` is the wrapping of `p1`, one empty line, and the wrapping of `p2`;
if moreover neither wrapping contains an empty line, the output has exactly
one empty element and neither starts nor ends with an empty element. -/
theorem chopEssay_two_paragraphs (essay p1 p2 : List Char) (k : Nat) (width : Int)
    (hessay : TrimSpace essay = p1 ++ (List.replicate k '\n' ++ p2)) (hk : 2 ≤ k)
    (hp1 : p1 ≠ []) (hp2 : p2 ≠ [])
    (hb1 : NoBlankLine p1) (hb2 : NoBlankLine p2)
    (he1 : ∀ c, p1.getLast? = some c → isNewline c = false)
    (hs2 : startsNewline p2 = false)
    (hc1 : chopParagraph p1 width ≠ []) (hc2 : chopParagraph p2 width ≠ []) :
    chopEssay essay width = chopParagraph p1 width ++ [] :: chopParagraph p2 width ∧
      ([] ∉ chopParagraph p1 width → [] ∉ chopParagraph p2 width →
        (chopEssay essay width).count [] = 1 ∧
          (chopEssay essay width).head? ≠ some [] ∧
          (chopEssay essay width).getLast? ≠ some []) := by
  have hl1 : len p1 > 0 := Nat.pos_of_ne_zero (fun h => hp1 ((len_eq_zero_iff p1).1 h))
  have hl2 : len p2 > 0 := Nat.pos_of_ne_zero (fun h => hp2 ((len_eq_zero_iff p2).1 h))
  have hn1 : (chopParagraph p1 width).length > 0 := List.length_pos.2 hc1
  have hn2 : (chopParagraph p2 width).length > 0 := List.length_pos.2 hc2
  have hloop : essayLoop width [p1, p2] [] =
      (chopParagraph p1 width ++ [] :: chopParagraph p2 width) ++ [[]] := by
    simp [essayLoop, hl1, hl2, hn1, hn2]
  have e : chopEssay essay width = chopParagraph p1 width ++ [] :: chopParagraph p2 width := by
    unfold chopEssay
    rw [hessay, splitBlank_two p1 p2 k hk hb1 hb2 he1 hs2, hloop]
    rw [if_neg (by simp)]
    exact List.take_left' (by simp)
  refine ⟨e, fun h1 h2 => ?_⟩
  rw [e]
  refine ⟨?_, ?_, ?_⟩
  · rw [List.count_append, List.count_cons_self, List.count_eq_zero_of_not_mem h1,
      List.count_eq_zero_of_not_mem h2]
  · cases hcp : chopParagraph p1 width with
    | nil => exact absurd hcp hc1
    | cons x xs =>
      rw [hcp] at h1
      simp only [List.cons_append, List.head?_cons, ne_eq, Option.some.injEq]
      intro hx
      exact h1 (hx ▸ List.mem_cons_self _ _)
  · intro hlast
    have hmem := List.mem_of_getLast?_eq_some hlast
    have hne : chopParagraph p2 width ≠ [] := hc2
    rw [List.getLast?_append, List.getLast?_cons] at hlast
    cases hcp : (chopParagraph p2 width).getLast? with
    | none => exact hne (List.getLast?_eq_none_iff.1 hcp)
    | some y =>
      rw [hcp] at hlast
      simp only [Option.getD_some, Option.or_some, Option.some.injEq] at hlast
      exact h2 (hlast ▸ List.mem_of_getLast?_eq_some hcp)

theorem chopEssay_two_paragraphs_witness :
    (TrimSpace "Para one text.\n\nPara two text.".toList =
        "Para one text.".toList ++ (List.replicate 2 '\n' ++ "Para two text.".toList)) ∧
      NoBlankLine "Para one text.".toList ∧ NoBlankLine "Para two text.".toList ∧
      chopParagraph "Para one text.".toList 80 = ["Para one text.".toList] ∧
      chopParagraph "Para two text.".toList 80 = ["Para two text.".toList] ∧
      chopEssay "Para one text.\n\nPara two text.".toList 80 =
        chopParagraph "Para one text.".toList 80 ++ [] :: chopParagraph "Para two text.".toList 80 ∧
      (chopEssay "Para one text.\n\nPara two text.".toList 80).count [] = 1 ∧
      (chopEssay "Para one text.\n\nPara two text.".toList 80).head? ≠ some [] ∧
      (chopEssay "Para one text.\n\nPara two text.".toList 80).getLast? ≠ some [] :=
  have h := chopEssay_two_paragraphs "Para one text.\n\nPara two text.".toList
    "Para one text.".toList "Para two text.".toList 2 80 (by decide) (by decide) (by decide)
    (by decide) (by decide) (by decide) (by decide) (by decide) (by decide) (by decide)
  ⟨by decide, by decide, by decide, by decide, by decide, h.1, h.2 (by decide) (by decide)⟩

/-- C5 as stated fails: the essay `aaa`, two newlines, `b` has two non-empty
paragraphs, but at width 1 the only word of the first one is dropped and the
output is the single line `b`, without any empty element. -/
theorem chopEssay_two_paragraphs_counterexample :
    TrimSpace "aaa\n\nb".toList = "aaa".toList ++ (List.replicate 2 '\n' ++ "b".toList) ∧
      NoBlankLine "aaa".toList ∧ NoBlankLine "b".toList ∧
      splitBlank false (TrimSpace "aaa\n\nb".toList) = ["aaa".toList, "b".toList] ∧
      chopEssay "aaa\n\nb".toList 1 = ["b".toList] ∧
      (chopEssay "aaa\n\nb".toList 1).count [] ≠ 1 := by
  decide

/-- Paragraph wrapping is per-line concatenation when the paragraph neither
starts nor ends with a blank line: for a list of non-empty lines without
newline of which the first and the last contain a non-space character,
wrapping the lines joined by newlines gives the concatenation, in order, of
the wrappings of the single lines. -/
theorem chopParagraph_lines (ls : List (List Char)) (width : Int)
    (hls : ∀ l ∈ ls, l ≠ [] ∧ ∀ c ∈ l, isNewline c = false)
    (hfirst : ∀ l, ls.head? = some l → ∃ c ∈ l, isSpace c = false)
    (hlast : ∀ l, ls.getLast? = some l → ∃ c ∈ l, isSpace c = false) :
    chopParagraph (['\n'].intercalate ls) width =
      (ls.map (fun l => chopLine l width)).flatten := by
  cases ls with
  | nil => simp [List.intercalate, chopParagraph, TrimSpace_nil, splitNewline, paragraphLoop, len]
  | cons l1 rest =>
    have h1 := hfirst l1 rfl
    have hnl1 := (hls l1 (List.mem_cons_self _ _)).2
    rcases List.eq_nil_or_concat rest with hrest | ⟨init, ln, hrest⟩
    · subst hrest
      have hJ : ['\n'].intercalate [l1] = l1 := by simp [List.intercalate]
      have hsplit : splitNewline (TrimSpace l1) = [TrimSpace l1] :=
        List.splitOnP_eq_single _ _ (fun c hc => by
          simp [hnl1 c ((TrimSpace_sublist l1).subset hc)])
      have hne : TrimSpace l1 ≠ [] :=
        ne_nil_of_nonblank isSpace _
          (rdropWhile_nonblank isSpace _ (dropWhile_nonblank isSpace l1 h1))
      unfold chopParagraph
      rw [hJ, hsplit, paragraphLoop_nonempty width _ [] (by simpa using hne)]
      simp [chopLine_congr l1 (TrimSpace l1) width (TrimSpace_idem l1)]
    · rw [List.concat_eq_append] at hrest
      subst hrest
      have hn := hlast ln (by simp [List.getLast?_cons, List.getLast?_append])
      have hnln := (hls ln (by simp)).2
      have hinit : ∀ x ∈ init, x ≠ [] ∧ ∀ c ∈ x, isNewline c = false :=
        fun x hx => hls x (by simp [hx])
      have hJ : ['\n'].intercalate (l1 :: (init ++ [ln])) =
          l1 ++ (('\n' :: (init.map (fun x => x ++ ['\n'])).flatten) ++ ln) := by
        rw [intercalate_cons_of_ne_nil _ l1 _ (by simp), intercalate_concat]
        simp
      have hsplit : splitNewline (l1.dropWhile isSpace ++
          (('\n' :: (init.map (fun x => x ++ ['\n'])).flatten) ++ ln.rdropWhile isSpace)) =
          l1.dropWhile isSpace :: (init ++ [ln.rdropWhile isSpace]) := by
        have hd : ∀ c ∈ l1.dropWhile isSpace, ¬ isNewline c = true := fun c hc => by
          simp [hnl1 c ((List.dropWhile_suffix isSpace).subset hc)]
        have := List.splitOnP_first isNewline (l1.dropWhile isSpace) hd '\n' (by decide)
          ((init.map (fun x => x ++ ['\n'])).flatten ++ ln.rdropWhile isSpace)
        simp only [splitNewline, List.cons_append]
        rw [this]
        exact congrArg _ (splitNewline_lines init _ (fun x hx => (hinit x hx).2)
          (fun c hc => hnln c ((List.rdropWhile_prefix isSpace ln).subset hc)))
      unfold chopParagraph
      rw [hJ, TrimSpace_shape l1 _ ln h1 hn, hsplit, paragraphLoop_nonempty width _ []]
      · simp [chopLine_congr l1 _ width (TrimSpace_dropWhile l1),
          chopLine_congr ln _ width (TrimSpace_rdropWhile ln)]
      · intro l hl
        rcases List.mem_cons.1 hl with rfl | hl
        · exact ne_nil_of_nonblank isSpace _ (dropWhile_nonblank isSpace l1 h1)
        rcases List.mem_append.1 hl with hl | hl
        · exact (hinit l hl).1
        rw [List.mem_singleton] at hl
        subst hl
        exact ne_nil_of_nonblank isSpace _ (rdropWhile_nonblank isSpace ln hn)

theorem chopParagraph_lines_witness :
    (∀ l ∈ ["line one".toList, "line two".toList], l ≠ [] ∧ ∀ c ∈ l, isNewline c = false) ∧
      (∀ l, ["line one".toList, "line two".toList].head? = some l →
        ∃ c ∈ l, isSpace c = false) ∧
      (∀ l, ["line one".toList, "line two".toList].getLast? = some l →
        ∃ c ∈ l, isSpace c = false) ∧
      chopParagraph "line one\nline two".toList 20 = ["line one".toList, "line two".toList] ∧
      chopParagraph (['\n'].intercalate ["line one".toList, "line two".toList]) 20 =
        (["line one".toList, "line two".toList].map (fun l => chopLine l 20)).flatten :=
  ⟨by decide, by decide, by decide, by decide,
    chopParagraph_lines ["line one".toList, "line two".toList] 20
      (by decide) (by decide) (by decide)⟩

/-- C6, evaluated: for the two lines ` ` (one space) and `a` at width 20,
`chopParagraph` of the lines joined by a newline is the single line `a`,
whereas the concatenation of the wrappings of the lines is an empty line
followed by `a`, because `chopLine` of the line ` ` is one empty line instead
of no line. -/
theorem chopParagraph_lines_eval :
    (∀ l ∈ [" ".toList, "a".toList], l ≠ [] ∧ ∀ c ∈ l, isNewline c = false) ∧
      chopLine " ".toList 20 = [[]] ∧
      chopParagraph (['\n'].intercalate [" ".toList, "a".toList]) 20 = ["a".toList] ∧
      ([" ".toList, "a".toList].map (fun l => chopLine l 20)).flatten = [[], "a".toList] ∧
      chopParagraph (['\n'].intercalate [" ".toList, "a".toList]) 20 ≠
        ([" ".toList, "a".toList].map (fun l => chopLine l 20)).flatten := by
  decide

/-- C7, evaluated: a line that is empty or holds a single space is wrapped at
width 10 to one empty line, not to the empty sequence. -/
theorem chopLine_blank_eval :
    chopLine "".toList 10 = [[]] ∧ chopLine " ".toList 10 = [[]] ∧
      chopParagraph "a\n \nb".toList 10 = ["a".toList, [], "b".toList] := by
  decide

/-- C8 (empty essay): an essay that is empty or consists of space characters
only is wrapped to the empty sequence, for every width. -/
theorem chopEssay_blank (essay : List Char) (width : Int)
    (h : ∀ c ∈ essay, isSpace c = true) : chopEssay essay width = [] := by
  unfold chopEssay
  rw [TrimSpace_eq_nil_of_blank essay h]
  simp [splitBlank, essayLoop, len]

theorem chopEssay_blank_witness :
    (∀ c ∈ " \n\t ".toList, isSpace c = true) ∧ chopEssay " \n\t ".toList 80 = [] :=
  ⟨by decide, chopEssay_blank _ 80 (by decide)⟩

/-- C9, evaluated: the essay `x`, newline, space, newline, `yy` at width 1 is
wrapped to the line `x` followed by an empty line. -/
theorem chopEssay_trailing_blank_eval :
    chopEssay "x\n \nyy".toList 1 = ["x".toList, []] := by
  decide

/-- C10 (non-positive width): for a width of zero or less the loop of
`chopLine` skips every non-empty word, and every line returned by `chopEssay`
is the empty string. -/
theorem chopEssay_nonpositive_width (essay : List Char) (width : Int) (hwidth : width ≤ 0) :
    (∀ (w : List Char) (ws lines : List (List Char)) (b : List Char), w ≠ [] →
        chopLoop width (w :: ws) lines b = chopLoop width ws lines b) ∧
      ∀ L ∈ chopEssay essay width, L = [] := by
  constructor
  · intro w ws lines b hw
    have h0 : len w ≠ 0 := fun h => hw ((len_eq_zero_iff w).1 h)
    have : (len w : Int) > width := by omega
    simp [chopLoop, this]
  · intro L hL
    have := chopEssay_bound essay width L hL
    apply (len_eq_zero_iff L).1
    omega

theorem chopEssay_nonpositive_width_witness :
    (0 : Int) ≤ 0 ∧ chopEssay "a\n \nb".toList 0 = [[]] ∧
      ∀ L ∈ chopEssay "a\n \nb".toList 0, L = [] :=
  ⟨by decide, by decide, (chopEssay_nonpositive_width "a\n \nb".toList 0 (by decide)).2⟩

/-- C12, evaluated: with the positional argument `x` and the piped input `y`,
`readArgs` returns both strings and `main` reports too many arguments; only
without positional arguments is the piped input the string that is wrapped. -/
theorem mainRun_piped_eval :
    readArgs ["x".toList] ⟨some 1, some "y".toList⟩ = some ["x".toList, "y".toList] ∧
      mainRun 72 [] [] ["x".toList] ⟨some 1, some "y".toList⟩ = Outcome.tooMany ∧
      mainRun 72 [] [] [] ⟨some 1, some "y".toList⟩ = Outcome.printed ["y".toList] := by
  refine ⟨rfl, rfl, ?_⟩
  have h : mainOutput 72 [] [] "y".toList = ["y".toList] := by decide
  show Outcome.printed (mainOutput 72 [] [] "y".toList) = Outcome.printed ["y".toList]
  rw [h]

/-- C13, amended (flush rule): for two non-empty words `u`, `v` without space
characters, each of at most `width` bytes, `chopLine` of `u`, one space, `v`
is the two lines `u`, `v` exactly when `len(u) + 1 + len(v) > width`, and the
single line `u`, space, `v` otherwise. -/
theorem chopLine_two_words (u v : List Char) (width : Int)
    (hu : u ≠ []) (hv : v ≠ [])
    (hus : ∀ c ∈ u, isSpace c = false) (hvs : ∀ c ∈ v, isSpace c = false)
    (hul : (len u : Int) ≤ width) (hvl : (len v : Int) ≤ width) :
    chopLine (u ++ ' ' :: v) width =
      if (len u : Int) + 1 + (len v : Int) > width then [u, v] else [u ++ ' ' :: v] := by
  have hu1 : ¬ ((len u : Int) > width) := by omega
  have hv1 : ¬ ((len v : Int) > width) := by omega
  have hu2 : ¬ (((0 : Nat) : Int) + (len u : Int) > width) := by omega
  have hbu : len (u ++ [' ']) = len u + 1 := by rw [len_append, len_singleton_space]
  have hbv : len (v ++ [' ']) ≠ 0 := by rw [len_append, len_singleton_space]; omega
  have hTu : TrimSpace (u ++ [' ']) = u := Tight_TrimSpace u (Tight_of_word u hu hus)
  have hTv : TrimSpace (v ++ [' ']) = v := Tight_TrimSpace v (Tight_of_word v hv hvs)
  unfold chopLine
  rw [words_two u v hu hv hus hvs]
  simp only [chopLoop, len, hu1, hv1, hu2, if_false, List.nil_append, hbu]
  by_cases hfl : (len u : Int) + 1 + (len v : Int) > width
  · have hfl2 : ((len u + 1 : Nat) : Int) + (len v : Int) > width := by push_cast; omega
    simp only [hfl2, hfl, if_true, chopFinish]
    rw [if_neg hbv, hTu, hTv]
    rfl
  · have hfl2 : ¬ (((len u + 1 : Nat) : Int) + (len v : Int) > width) := by push_cast; omega
    have hb : len (u ++ [' '] ++ (v ++ [' '])) ≠ 0 := by
      rw [len_append, hbu]; omega
    have hT : TrimSpace (u ++ [' '] ++ (v ++ [' '])) = u ++ ' ' :: v := by
      have := Tight_TrimSpace (u ++ ' ' :: v)
        (Tight_append_word u v (Tight_of_word u hu hus) hv hvs)
      simpa using this
    simp only [hfl2, hfl, if_false, chopFinish]
    rw [if_neg hb, hT]
    rfl

theorem chopLine_two_words_witness :
    "the".toList ≠ [] ∧ "quick".toList ≠ [] ∧
      (∀ c ∈ "the".toList, isSpace c = false) ∧ (∀ c ∈ "quick".toList, isSpace c = false) ∧
      (len "the".toList : Int) ≤ 9 ∧ (len "quick".toList : Int) ≤ 9 ∧
      chopLine "the quick".toList 9 = ["the quick".toList] ∧
      chopLine ("the".toList ++ ' ' :: "quick".toList) 9 =
        if (len "the".toList : Int) + 1 + (len "quick".toList : Int) > 9
        then ["the".toList, "quick".toList] else ["the".toList ++ ' ' :: "quick".toList] :=
  ⟨by decide, by decide, by decide, by decide, by decide, by decide, by decide,
    chopLine_two_words "the".toList "quick".toList 9 (by decide) (by decide) (by decide)
      (by decide) (by decide) (by decide)⟩

/-- C13 as stated fails: for `the` and `quick` at width 9 the test of the claim,
`len(u) + 1 + len(v) + 1 > width`, holds (10 > 9), but `chopLine` returns the
single line `the quick` of 9 bytes: the code compares `b.Len()+len(w)`, without
the space that follows the word. -/
theorem chopLine_two_words_counterexample :
    (len "the".toList : Int) ≤ 9 ∧ (len "quick".toList : Int) ≤ 9 ∧
      (len "the".toList : Int) + 1 + (len "quick".toList : Int) + 1 > 9 ∧
      chopLine ("the".toList ++ ' ' :: "quick".toList) 9 = ["the quick".toList] ∧
      chopLine ("the".toList ++ ' ' :: "quick".toList) 9 ≠
        ["the".toList, "quick".toList] := by
  decide

/-- C15, amended (greedy filling): for a line without newline whose space
characters all belong to the class `\s`, every two consecutive lines `A`, `B`
of `chopLine` satisfy `len(A) + 1 + len(first word of B) > width`. -/
theorem chopLine_greedy (line : List Char) (width : Int)
    (_hline : ∀ c ∈ line, isNewline c = false)
    (hascii : ∀ c ∈ line, isSpace c = true → isReSpace c = true) :
    (chopLine line width).Chain' (NoFit width) := by
  by_cases ht : TrimSpace line = []
  · rw [chopLine_of_blank line width ht]
    by_cases hw : 0 ≤ width
    · simp [hw]
    · simp [hw]
  · exact (chopLoop_lines width (words line) [] [] (words_clean line ht hascii)
      (by simp) List.chain'_nil (Or.inl ⟨rfl, rfl⟩)).2

theorem chopLine_greedy_witness :
    (∀ c ∈ "the quick brown fox".toList, isNewline c = false) ∧
      (∀ c ∈ "the quick brown fox".toList, isSpace c = true → isReSpace c = true) ∧
      chopLine "the quick brown fox".toList 10 = ["the quick".toList, "brown fox".toList] ∧
      (chopLine "the quick brown fox".toList 10).Chain' (NoFit 10) :=
  ⟨by decide, by decide, by decide,
    chopLine_greedy "the quick brown fox".toList 10 (by decide) (by decide)⟩

/-- C15 as stated fails: in the line `a`, U+00A0, space, `b` the first word is
`a` followed by a no-break space (3 bytes); at width 4 it is flushed before
`b` and trimmed to `a`, so the output is `a`, `b` although `a b` has 3 bytes. -/
theorem chopLine_greedy_counterexample :
    (∀ c ∈ "a\u00a0 b".toList, isNewline c = false) ∧
      chopLine "a\u00a0 b".toList 4 = ["a".toList, "b".toList] ∧
      ¬ (chopLine "a\u00a0 b".toList 4).Chain' (NoFit 4) := by
  have h : chopLine "a\u00a0 b".toList 4 = ["a".toList, "b".toList] := by decide
  refine ⟨by decide, h, ?_⟩
  rw [h, List.chain'_pair]
  unfold NoFit
  decide

/-- C16, amended (no empty line from real content): for a line without
newline that contains a non-space character and whose space characters all
belong to the class `\s`, every line of `chopLine` is non-empty, neither starts
nor ends with a space and contains no two adjacent spaces. -/
theorem chopLine_clean_lines (line : List Char) (width : Int)
    (_hline : ∀ c ∈ line, isNewline c = false)
    (hword : ∃ c ∈ line, isSpace c = false)
    (hascii : ∀ c ∈ line, isSpace c = true → isReSpace c = true) :
    ∀ L ∈ chopLine line width,
      L ≠ [] ∧ L.head? ≠ some ' ' ∧ L.getLast? ≠ some ' ' ∧ hasDoubleSpace L = false := by
  have ht : TrimSpace line ≠ [] :=
    ne_nil_of_nonblank isSpace _
      (rdropWhile_nonblank isSpace _ (dropWhile_nonblank isSpace line hword))
  intro L hL
  obtain ⟨hT, hd⟩ := (chopLoop_lines width (words line) [] [] (words_clean line ht hascii)
    (by simp) List.chain'_nil (Or.inl ⟨rfl, rfl⟩)).1 L hL
  exact ⟨hT.1, Tight_head_ne_space L hT, Tight_last_ne_space L hT, hd⟩

theorem chopLine_clean_lines_witness :
    (∀ c ∈ "  the   quick brown\tfox ".toList, isNewline c = false) ∧
      (∃ c ∈ "  the   quick brown\tfox ".toList, isSpace c = false) ∧
      (∀ c ∈ "  the   quick brown\tfox ".toList, isSpace c = true → isReSpace c = true) ∧
      chopLine "  the   quick brown\tfox ".toList 10 =
        ["the quick".toList, "brown fox".toList] ∧
      ∀ L ∈ chopLine "  the   quick brown\tfox ".toList 10,
        L ≠ [] ∧ L.head? ≠ some ' ' ∧ L.getLast? ≠ some ' ' ∧ hasDoubleSpace L = false :=
  ⟨by decide, by decide, by decide, by decide,
    chopLine_clean_lines "  the   quick brown\tfox ".toList 10 (by decide) (by decide)
      (by decide)⟩

/-- C16 as stated fails: the line `a`, space, U+00A0, space, `b` contains the
non-space characters `a` and `b`, yet at width 3 the no-break space is flushed
as a line of its own, which `strings.TrimSpace` empties. -/
theorem chopLine_clean_lines_counterexample :
    (∀ c ∈ "a \u00a0 b".toList, isNewline c = false) ∧
      (∃ c ∈ "a \u00a0 b".toList, isSpace c = false) ∧
      chopLine "a \u00a0 b".toList 3 = ["a".toList, [], "b".toList] ∧
      [] ∈ chopLine "a \u00a0 b".toList 3 := by
  decide

/-- C11, amended (re-wrapping is idempotent): for a line without newline whose
space characters all belong to the class `\s`, and a width at which
`chopLine` returns at least one line (or a negative width), joining the lines
of `chopLine` with single spaces and wrapping the result again at the same
width gives the same lines. -/
theorem chopLine_rewrap (line : List Char) (width : Int)
    (_hline : ∀ c ∈ line, isNewline c = false)
    (hascii : ∀ c ∈ line, isSpace c = true → isReSpace c = true)
    (hsome : chopLine line width = [] → width < 0) :
    chopLine ([' '].intercalate (chopLine line width)) width = chopLine line width := by
  by_cases ht : TrimSpace line = []
  · rw [chopLine_of_blank line width ht]
    by_cases hw : 0 ≤ width
    · simp only [hw, if_true, intercalate_single]
      rw [chopLine_of_blank [] width TrimSpace_nil, if_pos hw]
    · simp only [hw, if_false]
      have : ([' '] : List Char).intercalate [] = [] := rfl
      rw [this, chopLine_of_blank [] width TrimSpace_nil, if_neg hw]
  · have hws := words_clean line ht hascii
    have hkept : ∀ w ∈ (words line).filter (fits width), w ≠ [] ∧ ∀ c ∈ w, isSpace c = false :=
      fun w hw => hws w (List.mem_of_mem_filter hw)
    have hout : outputWords (chopLine line width) = (words line).filter (fits width) := by
      unfold chopLine
      rw [chopLoop_words width (words line) [] [] [] hws (Or.inl ⟨rfl, rfl⟩)]
      simp [outputWords]
    have hloop : chopLine line width =
        chopFinish (chopLoop width ((words line).filter (fits width)) [] []) := by
      unfold chopLine
      rw [chopLoop_filter]
    by_cases hk : (words line).filter (fits width) = []
    · have hnil : chopLine line width = [] := by
        rw [hloop, hk]
        simp [chopLoop, chopFinish, len]
      have hw : ¬ (0 ≤ width) := by have := hsome hnil; omega
      rw [hnil]
      have : ([' '] : List Char).intercalate [] = [] := rfl
      rw [this, chopLine_of_blank [] width TrimSpace_nil, if_neg hw]
    · have hjoin : [' '].intercalate (chopLine line width) =
          [' '].intercalate ((words line).filter (fits width)) := by
        have hid : chopLine line width =
            ((chopLine line width).map (fun L => L.splitOn ' ')).map
              (fun xs => [' '].intercalate xs) := by
          rw [List.map_map]
          conv_lhs => rw [← List.map_id (chopLine line width)]
          apply List.map_congr_left
          intro L _
          exact (List.intercalate_splitOn L ' ').symm
        rw [← hout]
        conv_lhs => rw [hid]
        rw [intercalate_flatten [' '] _ (by
          intro xs hxs
          obtain ⟨L, _, rfl⟩ := List.mem_map.1 hxs
          exact List.splitOnP_ne_nil _ _)]
        rfl
      have hwords := words_intercalate _ hk hkept
      have e : chopLine ([' '].intercalate (chopLine line width)) width =
          chopFinish (chopLoop width (words ([' '].intercalate (chopLine line width))) [] []) :=
        rfl
      rw [e, hjoin, hwords, ← hloop]

theorem chopLine_rewrap_witness :
    (∀ c ∈ "the quick brown fox extraordinarily".toList, isNewline c = false) ∧
      (∀ c ∈ "the quick brown fox extraordinarily".toList,
        isSpace c = true → isReSpace c = true) ∧
      chopLine "the quick brown fox extraordinarily".toList 10 =
        ["the quick".toList, "brown fox".toList] ∧
      chopLine ([' '].intercalate (chopLine "the quick brown fox extraordinarily".toList 10)) 10 =
        chopLine "the quick brown fox extraordinarily".toList 10 :=
  ⟨by decide, by decide, by decide,
    chopLine_rewrap "the quick brown fox extraordinarily".toList 10 (by decide) (by decide)
      (by decide)⟩

/-- C11 as stated fails.  For the line `a`, space, U+00A0, space, `b` at width 3
the output `a`, empty line, `b` is joined to `a`, two spaces, `b` and wrapped
again to the single line `a b`.  For a line whose only word is longer than the
width the output is empty, its join is the empty string, and wrapping the
empty string gives one empty line. -/
theorem chopLine_rewrap_counterexample :
    (∀ c ∈ "a \u00a0 b".toList, isNewline c = false) ∧
      chopLine "a \u00a0 b".toList 3 = ["a".toList, [], "b".toList] ∧
      chopLine ([' '].intercalate (chopLine "a \u00a0 b".toList 3)) 3 = ["a b".toList] ∧
      chopLine ([' '].intercalate (chopLine "a \u00a0 b".toList 3)) 3 ≠
        chopLine "a \u00a0 b".toList 3 ∧
      chopLine "supercalifragilisticexpialidocious".toList 10 = [] ∧
      chopLine ([' '].intercalate
        (chopLine "supercalifragilisticexpialidocious".toList 10)) 10 = [[]] := by
  decide

/-- C14 (essay decomposition): for paragraphs without two consecutive
newlines, `chopEssay` of the paragraphs joined by two newlines is the list of
the non-empty results of `chopParagraph`, in order, joined by exactly one
empty line; and the lines accumulated by the loop, unless there are none, are
this result followed by the empty separator that is removed at the end. -/
theorem chopEssay_decomposition (ps : List (List Char)) (width : Int)
    (hps : ∀ p ∈ ps, NoBlankLine p) :
    chopEssay (['\n', '\n'].intercalate ps) width =
        ([[]] : List (List Char)).intercalate (wrappedParagraphs width ps) ∧
      (essayLoop width (splitBlank false (TrimSpace (['\n', '\n'].intercalate ps))) [] = [] ∨
        essayLoop width (splitBlank false (TrimSpace (['\n', '\n'].intercalate ps))) [] =
          chopEssay (['\n', '\n'].intercalate ps) width ++ [[]]) := by
  obtain ⟨h1, h2⟩ := chopEssay_eq (['\n', '\n'].intercalate ps) width
  refine ⟨?_, h2⟩
  rw [h1, ← wrappedParagraphs_trimmed, trimmedParagraphs_essay ps hps,
    wrappedParagraphs_trimmed]

theorem chopEssay_decomposition_witness :
    (∀ p ∈ [" one\ntwo\n".toList, "toolongaword".toList, "\n".toList, "three four ".toList],
        NoBlankLine p) ∧
      wrappedParagraphs 8
        [" one\ntwo\n".toList, "toolongaword".toList, "\n".toList, "three four ".toList] =
        [["one".toList, "two".toList], ["three".toList, "four".toList]] ∧
      chopEssay " one\ntwo\n\n\ntoolongaword\n\n\n\n\nthree four ".toList 8 =
        ["one".toList, "two".toList, [], "three".toList, "four".toList] ∧
      (chopEssay (['\n', '\n'].intercalate
          [" one\ntwo\n".toList, "toolongaword".toList, "\n".toList, "three four ".toList]) 8 =
        ([[]] : List (List Char)).intercalate (wrappedParagraphs 8
          [" one\ntwo\n".toList, "toolongaword".toList, "\n".toList, "three four ".toList]) ∧
      (essayLoop 8 (splitBlank false (TrimSpace (['\n', '\n'].intercalate
          [" one\ntwo\n".toList, "toolongaword".toList, "\n".toList,
            "three four ".toList]))) [] = [] ∨
        essayLoop 8 (splitBlank false (TrimSpace (['\n', '\n'].intercalate
          [" one\ntwo\n".toList, "toolongaword".toList, "\n".toList,
            "three four ".toList]))) [] =
          chopEssay (['\n', '\n'].intercalate
            [" one\ntwo\n".toList, "toolongaword".toList, "\n".toList,
              "three four ".toList]) 8 ++ [[]])) :=
  ⟨by decide, by decide, by decide,
    chopEssay_decomposition
      [" one\ntwo\n".toList, "toolongaword".toList, "\n".toList, "three four ".toList] 8
      (by decide)⟩

end Lines
